import Mathlib

/-! SolarSystem (solar2.c): the hand-written modelview pipeline.

A shallow embedding of `src/solar2.c`.  `GLfloat` scalars are modelled as exact
rationals, the C `int` `stack_ptr` as an integer (it is incremented only below 32 and
decremented only above 0, so no wrap-around is involved), and an array access outside
its bounds or a division by zero makes the embedded function return `none`.  Calls into OpenGL / GLUT / libc are recorded, in order, in an
output trace.
-/

namespace Solar

/-! ## I. Data structures and constants -/

/-- Constant `PI` (`#define PI 3.14159265358979323846`), as an exact rational. -/
def PI : ℚ := 314159265358979323846 / 100000000000000000000

/-- Constant `STACK_DEPTH` (`#define STACK_DEPTH 32`). -/
def STACK_DEPTH : Int := 32

/-- Type `Matrix4x4` (`typedef GLfloat Matrix4x4[16]`): sixteen scalars, column-major. -/
abbrev Matrix4x4 := Mathlib.Vector ℚ 16

/-- Flat index of column `j`, row `i`: the source writes `j * 4 + i`. -/
def idx (j i : Fin 4) : Fin 16 := ⟨j.val * 4 + i.val, by omega⟩

/-- Array store `m[i] = v`. -/
def store (m : Matrix4x4) (i : Fin 16) (v : ℚ) : Matrix4x4 :=
  m.set i v

/-- Record `struct Planet`. -/
structure Planet where
  name : String
  radius : ℚ
  distance : ℚ
  orbital_period : ℚ

/-- The table `planets[]` (nine entries, the Sun first). -/
def planets : List Planet :=
  [⟨"Sun", 3, 0, 0⟩,
   ⟨"Mercury", 3 / 10, 4, 88⟩,
   ⟨"Venus", 5 / 10, 6, 225⟩,
   ⟨"Earth", 6 / 10, 8, 365⟩,
   ⟨"Mars", 4 / 10, 10, 687⟩,
   ⟨"Jupiter", 15 / 10, 15, 4333⟩,
   ⟨"Saturn", 12 / 10, 18, 10759⟩,
   ⟨"Uranus", 8 / 10, 21, 30687⟩,
   ⟨"Neptune", 8 / 10, 24, 60190⟩]

/-- Position `i` of an array of `n` elements; `none` when `i` is out of bounds. -/
def slot (n : Nat) (i : Int) : Option (Fin n) :=
  if h : 0 ≤ i ∧ i < n then some ⟨i.toNat, by omega⟩ else none

/-- Read of `planets[i]`. -/
def planet_at (i : Int) : Option Planet :=
  if 0 ≤ i then planets[i.toNat]? else none

/-- Values of the counter of `for (int i = lo; i < hi; i++)`. -/
def loop_range (lo hi : Int) : List Int :=
  (List.range (hi - lo).toNat).map (fun (n : Nat) => lo + Int.ofNat n)

/-- Division of scalars; `none` when the divisor is zero. -/
def fdiv (a b : ℚ) : Option ℚ :=
  if b = 0 then none else some (a / b)

/-- Calls that leave the program, in the order they are made. -/
inductive GLCall where
  | printf (msg : String)
  | glLoadMatrixf (m : Matrix4x4)
  | glClear
  | glMatrixMode
  | glLoadIdentity
  | gluLookAt
  | glGetFloatv
  | glColor3f (r g b : ℚ)
  | glutWireSphere (radius : ℚ) (slices nstacks : Nat)
  | gluNewQuadric
  | gluDisk (inner outer : ℚ) (slices nloops : Nat)
  | gluDeleteQuadric
  | glFlush
  | glutPostRedisplay

/-- The global variables of the program, with the trace of outside calls. -/
structure State where
  MATRIX_STACK : Mathlib.Vector Matrix4x4 32
  stack_ptr : Int
  CurrentMatrix : Matrix4x4
  revolution_angles : Mathlib.Vector ℚ 8
  rotation : ℚ
  out : List GLCall

/-- The `cosf` and `sinf` of libm, which the source only calls. -/
structure Libm where
  cosf : ℚ → ℚ
  sinf : ℚ → ℚ

/-! ## II. Manual matrix operations -/

/-- Function `identity_matrix(m)`: the loop zeroes the sixteen entries, then the chained
assignment sets the diagonal. -/
def identity_matrix (m : Matrix4x4) : Matrix4x4 :=
  let m := (List.finRange 16).foldl (fun m i => store m i 0) m
  let m := store m 15 1
  let m := store m 10 1
  let m := store m 5 1
  store m 0 1

/-- The three arrays `multiply_matrix` works on: its operands and the local `C`. -/
structure MulFrame where
  A : Matrix4x4
  B : Matrix4x4
  C : Matrix4x4

/-- Innermost statement: `C[j * 4 + i] += A[k * 4 + i] * B[j * 4 + k]`. -/
def mul_step (j i : Fin 4) (f : MulFrame) (k : Fin 4) : MulFrame :=
  { f with C := store f.C (idx j i) (f.C.get (idx j i) + f.A.get (idx k i) * f.B.get (idx j k)) }

/-- Body of the `i` loop: clear `C[j * 4 + i]`, then run the `k` loop. -/
def mul_row (j : Fin 4) (f : MulFrame) (i : Fin 4) : MulFrame :=
  (List.finRange 4).foldl (mul_step j i) { f with C := store f.C (idx j i) 0 }

/-- Body of the `j` loop. -/
def mul_col (f : MulFrame) (j : Fin 4) : MulFrame :=
  (List.finRange 4).foldl (mul_row j) f

/-- Statement of the copy loop: `A[i] = C[i]`. -/
def mul_copy (f : MulFrame) (i : Fin 16) : MulFrame :=
  { f with A := store f.A i (f.C.get i) }

/-- The body of `multiply_matrix` on its three arrays; `C0` is whatever the
uninitialised local `C` holds on entry. -/
def multiply_matrix_frame (C0 A B : Matrix4x4) : MulFrame :=
  let f := (List.finRange 4).foldl mul_col ⟨A, B, C0⟩
  (List.finRange 16).foldl mul_copy f

/-- Contents of a local array before its first assignment. The source writes every
entry of such an array before reading it. -/
def uninit : Matrix4x4 := Mathlib.Vector.replicate 16 0

/-- Function `multiply_matrix(A, B)`: the new contents of `A`. -/
def multiply_matrix (A B : Matrix4x4) : Matrix4x4 :=
  (multiply_matrix_frame uninit A B).A

/-- Call of `glLoadMatrixf(CurrentMatrix)`. -/
def load_current (s : State) : State :=
  { s with out := s.out ++ [GLCall.glLoadMatrixf s.CurrentMatrix] }

/-- Record one outside call. -/
def emit (c : GLCall) (s : State) : State :=
  { s with out := s.out ++ [c] }

/-- The local `T` of `my_translatef` when it is handed to `multiply_matrix`. -/
def translation_matrix (x y z : ℚ) : Matrix4x4 :=
  let T := identity_matrix uninit
  let T := store T 12 x
  let T := store T 13 y
  store T 14 z

/-- Function `my_translatef(x, y, z)`. -/
def my_translatef (x y z : ℚ) (s : State) : State :=
  let T := translation_matrix x y z
  let s := { s with CurrentMatrix := multiply_matrix s.CurrentMatrix T }
  load_current s

/-- The local `R` of `my_rotatef_y` when it is handed to `multiply_matrix`, for
`c = cosf(rad)` and `s = sinf(rad)`. -/
def rotation_y_matrix (c s : ℚ) : Matrix4x4 :=
  let R := identity_matrix uninit
  let R := store R 0 c
  let R := store R 2 s
  let R := store R 8 (-s)
  store R 10 c

/-- Function `my_rotatef_y(angle)`. -/
def my_rotatef_y (lm : Libm) (angle : ℚ) (s : State) : State :=
  let rad := angle * PI / 180
  let c := lm.cosf rad
  let sn := lm.sinf rad
  let R := rotation_y_matrix c sn
  let s := { s with CurrentMatrix := multiply_matrix s.CurrentMatrix R }
  load_current s

/-! ## III. Custom matrix stack -/

/-- The loop `for (i = 0; i < 16; i++) dst[i] = src[i]`. -/
def copy_matrix (dst src : Matrix4x4) : Matrix4x4 :=
  (List.finRange 16).foldl (fun m i => store m i (src.get i)) dst

/-- Text printed by the overflow branch of `push_matrix`. -/
def overflow_msg : String := "ERROR: Matrix stack overflow!\n"

/-- Text printed by the underflow branch of `pop_matrix`. -/
def underflow_msg : String := "ERROR: Matrix stack underflow!\n"

/-- Function `push_matrix()`. -/
def push_matrix (s : State) : Option State :=
  if s.stack_ptr ≥ STACK_DEPTH then
    some (emit (GLCall.printf overflow_msg) s)
  else do
    let p ← slot 32 s.stack_ptr
    let m := copy_matrix (s.MATRIX_STACK.get p) s.CurrentMatrix
    let s := { s with MATRIX_STACK := s.MATRIX_STACK.set p m }
    some { s with stack_ptr := s.stack_ptr + 1 }

/-- Function `pop_matrix()`. -/
def pop_matrix (s : State) : Option State :=
  if s.stack_ptr ≤ 0 then
    some (emit (GLCall.printf underflow_msg) s)
  else do
    let s := { s with stack_ptr := s.stack_ptr - 1 }
    let p ← slot 32 s.stack_ptr
    let s := { s with CurrentMatrix := copy_matrix s.CurrentMatrix (s.MATRIX_STACK.get p) }
    some (load_current s)

/-! ## IV. Scene rendering and animation -/

/-- Function `draw_sphere(radius)`. -/
def draw_sphere (radius : ℚ) (s : State) : State :=
  emit (GLCall.glutWireSphere radius 20 16) s

/-- The colour chosen by the `if` chain of `display` for planet `i`. -/
def planet_colour (i : Int) : ℚ × ℚ × ℚ :=
  if i = 1 then (5 / 10, 5 / 10, 5 / 10)
  else if i = 2 then (9 / 10, 6 / 10, 1 / 10)
  else if i = 3 then (0, 5 / 10, 1)
  else if i = 4 then (8 / 10, 3 / 10, 1 / 10)
  else if i = 5 then (8 / 10, 7 / 10, 5 / 10)
  else if i = 6 then (9 / 10, 8 / 10, 6 / 10)
  else if i = 7 then (6 / 10, 8 / 10, 9 / 10)
  else (2 / 10, 4 / 10, 7 / 10)

/-- The part of `display` before the planet loop: clear, reset `CurrentMatrix`, let
OpenGL build the camera matrix, read it back as `V`, draw the Sun. -/
def display_begin (V : Matrix4x4) (s : State) : Option State := do
  let s := emit GLCall.glClear s
  let s := { s with CurrentMatrix := identity_matrix s.CurrentMatrix }
  let s := load_current s
  let s := emit GLCall.glMatrixMode s
  let s := emit GLCall.glLoadIdentity s
  let s := emit GLCall.gluLookAt s
  let s := emit GLCall.glGetFloatv { s with CurrentMatrix := V }
  let s := emit (GLCall.glColor3f 1 (8 / 10) 0) s
  let sun ← planet_at 0
  some (draw_sphere sun.radius s)

/-- Steps 2 to 5 of the loop body of `display`: orbit rotation, translation, axial
rotation, colour, sphere. -/
def planet_transform (lm : Libm) (i : Int) (s : State) : Option State := do
  let a ← slot 8 (i - 1)
  let s := my_rotatef_y lm (s.revolution_angles.get a) s
  let pl ← planet_at i
  let s := my_translatef pl.distance 0 0 s
  let speed_factor : ℚ := if i ≥ 5 then 2 else 1
  let s := my_rotatef_y lm (s.rotation * speed_factor) s
  let colour := planet_colour i
  let s := emit (GLCall.glColor3f colour.1 colour.2.1 colour.2.2) s
  some (draw_sphere pl.radius s)

/-- The local `R_rings` of `display` when it is handed to `multiply_matrix`. -/
def ring_matrix : Matrix4x4 :=
  let R := identity_matrix uninit
  let R := store R 5 0
  let R := store R 6 1
  let R := store R 9 (-1)
  store R 10 0

/-- The ring block of `display` between its `push_matrix` and its `pop_matrix`. -/
def ring_transform (i : Int) (s : State) : Option State := do
  let s := { s with CurrentMatrix := multiply_matrix s.CurrentMatrix ring_matrix }
  let s := load_current s
  let s := emit (GLCall.glColor3f (5 / 10) (5 / 10) (5 / 10)) s
  let s := emit GLCall.gluNewQuadric s
  let pl ← planet_at i
  let s := emit (GLCall.gluDisk (pl.radius * (125 / 100)) (pl.radius * (175 / 100)) 32 32) s
  some (emit GLCall.gluDeleteQuadric s)

/-- Step 6 of the loop body of `display`: the rings, drawn for `i == 6` only. -/
def ring_block (i : Int) (s : State) : Option State :=
  if i = 6 then do
    let s ← push_matrix s
    let s ← ring_transform i s
    pop_matrix s
  else some s

/-- One iteration of the planet loop of `display`. -/
def display_planet (lm : Libm) (s : State) (i : Int) : Option State := do
  let s ← push_matrix s
  let s ← planet_transform lm i s
  let s ← ring_block i s
  pop_matrix s

/-- The loop `for (int i = 1; i < 9; i++)` of `display`. -/
def display_loop (lm : Libm) (s : State) : Option State :=
  (loop_range 1 9).foldlM (display_planet lm) s

/-- Function `display()`; `V` is the matrix `glGetFloatv` reads back after `gluLookAt`. -/
def display (lm : Libm) (V : Matrix4x4) (s : State) : Option State := do
  let s ← display_begin V s
  let s ← display_loop lm s
  some (emit GLCall.glFlush s)

/-- One iteration of the loop of `animate`. -/
def animate_planet (period_scale : ℚ) (s : State) (i : Int) : Option State := do
  let pl ← planet_at (i + 1)
  let q ← fdiv 365 pl.orbital_period
  let speed := q * period_scale
  let a ← slot 8 i
  let angles := s.revolution_angles.set a (s.revolution_angles.get a + speed)
  let s := { s with revolution_angles := angles }
  if s.revolution_angles.get a > 360 then
    let angles := s.revolution_angles.set a (s.revolution_angles.get a - 360)
    some { s with revolution_angles := angles }
  else some s

/-- Function `animate()`. -/
def animate (s : State) : Option State := do
  let period_scale : ℚ := 1 / 100
  let s ← (loop_range 0 8).foldlM (animate_planet period_scale) s
  let s := { s with rotation := s.rotation + 2 }
  let s := if s.rotation > 360 then { s with rotation := s.rotation - 360 } else s
  some (emit GLCall.glutPostRedisplay s)

/-- The globals at program start: static storage is zeroed, `stack_ptr = 0`. -/
def init : State :=
  { MATRIX_STACK := Mathlib.Vector.replicate 32 (Mathlib.Vector.replicate 16 0)
    stack_ptr := 0
    CurrentMatrix := Mathlib.Vector.replicate 16 0
    revolution_angles := Mathlib.Vector.replicate 8 0
    rotation := 0
    out := [] }

/-- Row `i` of `A` times column `j` of `B`. -/
def dot (A B : Matrix4x4) (j i : Fin 4) : ℚ :=
  ∑ k : Fin 4, A.get (idx k i) * B.get (idx j k)

/-! ## Sequences of calls -/

/-- The calls a caller can make on the transform state. -/
inductive Op where
  | push
  | pop
  | translate (x y z : ℚ)
  | rotateY (angle : ℚ)

/-- Perform one call. -/
def step (lm : Libm) (s : State) : Op → Option State
  | Op.push => push_matrix s
  | Op.pop => pop_matrix s
  | Op.translate x y z => some (my_translatef x y z s)
  | Op.rotateY angle => some (my_rotatef_y lm angle s)

/-- Perform a sequence of calls, left to right. -/
def run (lm : Libm) (ops : List Op) (s : State) : Option State :=
  ops.foldlM (step lm) s

/-- Change of nesting level caused by a call. -/
def delta : Op → Int
  | Op.push => 1
  | Op.pop => -1
  | _ => 0

/-- The word is well nested when read at nesting level `h`: no pop without an open push,
and level zero at the end. -/
def well_nested_from (h : Int) : List Op → Bool
  | [] => h == 0
  | op :: ops => decide (0 ≤ h + delta op) && well_nested_from (h + delta op) ops

/-- Balanced word of pushes and pops. -/
def well_nested (ops : List Op) : Bool := well_nested_from 0 ops

/-- Highest nesting level reached when the word is read from level `h`. -/
def peak_from (h : Int) : List Op → Int
  | [] => h
  | op :: ops => max h (peak_from (h + delta op) ops)

/-- Nesting depth of a word. -/
def peak (ops : List Op) : Int := peak_from 0 ops

/-- The stack pointer is within the array: `0 <= stack_ptr <= 32`. -/
def Inv (s : State) : Prop := 0 ≤ s.stack_ptr ∧ s.stack_ptr ≤ STACK_DEPTH

instance (s : State) : Decidable (Inv s) := by
  unfold Inv
  infer_instance

/-- State `t` has the stack pointer and the stack slots of state `s`. -/
def SameStack (s t : State) : Prop :=
  t.stack_ptr = s.stack_ptr ∧ t.MATRIX_STACK = s.MATRIX_STACK

instance (s t : State) : Decidable (SameStack s t) := by
  unfold SameStack
  infer_instance

/-- A full stack of zero matrices under an identity current transform. -/
def full_stack : State :=
  { init with stack_ptr := 32, CurrentMatrix := identity_matrix uninit }

/-- A libm stand-in answering cosine 0 and sine 1 (a quarter turn) for every argument. -/
def quarter_libm : Libm := ⟨fun _ => 0, fun _ => 1⟩

/-! ## Affine transforms -/

/-- Last row `[0, 0, 0, 1]`: entries `[3] = [7] = [11] = 0` and `[15] = 1`. -/
def affine (m : Matrix4x4) : Prop :=
  m.get 3 = 0 ∧ m.get 7 = 0 ∧ m.get 11 = 0 ∧ m.get 15 = 1

instance (m : Matrix4x4) : Decidable (affine m) := by
  unfold affine
  infer_instance

/-- The current transform and every saved slot (index below `stack_ptr`) are affine. -/
def AffineState (s : State) : Prop :=
  affine s.CurrentMatrix ∧
    ∀ p : Fin 32, (p.val : Int) < s.stack_ptr → affine (s.MATRIX_STACK.get p)

instance (s : State) : Decidable (AffineState s) := by
  unfold AffineState
  infer_instance

/-- A libm stand-in answering cosine 1 and sine 0 (no turn) for every argument. -/
def rest_libm : Libm := ⟨fun _ => 1, fun _ => 0⟩

/-- The state at program start with the identity as current transform. -/
def identity_start : State :=
  { init with CurrentMatrix := identity_matrix uninit }

/-- The right-handed rotation about the X axis for cosine `c` and sine `s`, written out
column by column as the specification words it: row 1/col 1 = `c`, row 1/col 2 = `-s`,
row 2/col 1 = `s`, row 2/col 2 = `c`, identity elsewhere. -/
def standard_rotation_x (c s : ℚ) : Matrix4x4 :=
  ⟨[1, 0, 0, 0,
    0, c, s, 0,
    0, -s, c, 0,
    0, 0, 0, 1], rfl⟩

/-! ## Observing a frame -/

/-- The matrix `my_rotatef_y(angle)` builds and hands to `multiply_matrix`. -/
def rotation_of (lm : Libm) (angle : ℚ) : Matrix4x4 :=
  rotation_y_matrix (lm.cosf (angle * PI / 180)) (lm.sinf (angle * PI / 180))

/-- From `s` to `t` the output only grew, and by no `printf`: neither error branch of
the stack was taken. -/
def Quiet (s t : State) : Prop :=
  ∃ new, t.out = s.out ++ new ∧ ∀ msg, GLCall.printf msg ∉ new

/-- State `t` has the animation angles of state `s`. -/
def SameAnim (s t : State) : Prop :=
  t.revolution_angles = s.revolution_angles ∧ t.rotation = s.rotation

/-- State of the planet loop of `display` when iteration `i` starts, that is after the
iterations `1 .. i - 1`; `s` is the state on entry to the loop. -/
def loop_upto (lm : Libm) (s : State) (i : Int) : Option State :=
  (loop_range 1 i).foldlM (display_planet lm) s

/-- State of the planet loop of `display` when the sphere of planet `i` has just been
drawn: iterations `1 .. i - 1`, then the push and steps 2 to 5 of iteration `i`. -/
def at_sphere (lm : Libm) (s : State) (i : Int) : Option State := do
  let s ← loop_upto lm s i
  let s ← push_matrix s
  planet_transform lm i s

/-! ## Animation ticks -/

/-- The wrap step `if (x > 360.0f) x -= 360.0f` of `animate`. -/
def wrap360 (x : ℚ) : ℚ := if x > 360 then x - 360 else x

/-- Orbital period of `planets[i]`; zero outside the table. -/
def period_of (i : Int) : ℚ :=
  match planet_at i with
  | some pl => pl.orbital_period
  | none => 0

/-- The `speed` of `animate` for loop index `i`:
`365.0f / planets[i + 1].orbital_period * period_scale` with `period_scale = 0.01f`. -/
def speed_of (i : Int) : ℚ := 365 / period_of (i + 1) * (1 / 100)

/-- Result of `n` consecutive calls of `animate`. -/
def ticks : Nat → State → Option State
  | 0, s => some s
  | n + 1, s => (animate s).bind (ticks n)

/-- Every orbital angle and the axial angle are between 0 and 360, both included. -/
def AnglesWithin (s : State) : Prop :=
  (∀ k : Fin 8, 0 ≤ s.revolution_angles.get k ∧ s.revolution_angles.get k ≤ 360) ∧
    0 ≤ s.rotation ∧ s.rotation ≤ 360

/-! ## Basic facts about arrays and indices -/

theorem finRange4 : List.finRange 4 = [0, 1, 2, 3] := by decide

theorem get_store (m : Matrix4x4) (i n : Fin 16) (v : ℚ) :
    (store m i v).get n = if n = i then v else m.get n := by
  unfold store
  rw [Mathlib.Vector.get_set_eq_if]
  by_cases h : i = n
  · simp [h]
  · have h2 : ¬ n = i := fun e => h e.symm
    simp [h, h2]

theorem idx_inj (a b c d : Fin 4) : idx a b = idx c d ↔ a = c ∧ b = d := by
  simp only [idx, Fin.ext_iff]
  omega

theorem idx_surj (n : Fin 16) : ∃ j i, n = idx j i :=
  ⟨⟨n.val / 4, by omega⟩, ⟨n.val % 4, by omega⟩, by simp only [idx, Fin.ext_iff]; omega⟩

theorem matrix_ext {M N : Matrix4x4} (h : ∀ j i, M.get (idx j i) = N.get (idx j i)) : M = N := by
  apply Mathlib.Vector.ext
  intro n
  obtain ⟨j, i, rfl⟩ := idx_surj n
  exact h j i

theorem store_idx (m : Matrix4x4) (a b c d : Fin 4) (v : ℚ) :
    (store m (idx c d) v).get (idx a b) = if a = c ∧ b = d then v else m.get (idx a b) := by
  simp [get_store, idx_inj]

theorem store_store (m : Matrix4x4) (i : Fin 16) (a b : ℚ) :
    store (store m i a) i b = store m i b := by
  apply Mathlib.Vector.ext
  intro n
  by_cases h : n = i <;> simp [get_store, h]

theorem fold_store_get (g : Fin 16 → ℚ) (l : List (Fin 16)) (m : Matrix4x4) (n : Fin 16) :
    (l.foldl (fun m i => store m i (g i)) m).get n = if n ∈ l then g n else m.get n := by
  induction l generalizing m with
  | nil => simp
  | cons i l ih =>
    rw [List.foldl_cons, ih]
    by_cases h1 : n ∈ l
    · simp [h1]
    · by_cases h2 : n = i <;> simp [h1, h2, get_store]

theorem copy_matrix_eq (dst src : Matrix4x4) : copy_matrix dst src = src := by
  apply Mathlib.Vector.ext
  intro n
  unfold copy_matrix
  rw [fold_store_get (fun i => src.get i), if_pos (List.mem_finRange n)]

/-! ## The matrix product -/

theorem mul_row_eq (j i : Fin 4) (f : MulFrame) :
    mul_row j f i = { f with C := store f.C (idx j i) (dot f.A f.B j i) } := by
  simp only [mul_row, finRange4, List.foldl, mul_step, get_store, if_true, store_store, dot,
    Fin.sum_univ_four, zero_add]
  rfl

theorem mul_col_eq (j : Fin 4) (f : MulFrame) :
    mul_col f j = { f with C := store (store (store (store f.C (idx j 0) (dot f.A f.B j 0))
      (idx j 1) (dot f.A f.B j 1)) (idx j 2) (dot f.A f.B j 2)) (idx j 3) (dot f.A f.B j 3) } := by
  simp only [mul_col, finRange4, List.foldl, mul_row_eq]
  rfl

theorem mul_cols_C (C0 A B : Matrix4x4) (j i : Fin 4) :
    ((List.finRange 4).foldl mul_col ⟨A, B, C0⟩).C.get (idx j i) = dot A B j i := by
  simp only [finRange4, List.foldl, mul_col_eq, store_idx]
  fin_cases j <;> fin_cases i <;> simp

theorem mul_cols_AB (C0 A B : Matrix4x4) :
    ((List.finRange 4).foldl mul_col ⟨A, B, C0⟩).A = A ∧
    ((List.finRange 4).foldl mul_col ⟨A, B, C0⟩).B = B := by
  simp only [finRange4, List.foldl, mul_col_eq, and_self]

theorem mul_copy_fold (l : List (Fin 16)) (f : MulFrame) :
    (l.foldl mul_copy f).B = f.B ∧ (l.foldl mul_copy f).C = f.C ∧
    ∀ n, (l.foldl mul_copy f).A.get n = if n ∈ l then f.C.get n else f.A.get n := by
  induction l generalizing f with
  | nil => simp
  | cons i l ih =>
    obtain ⟨hB, hC, hA⟩ := ih (mul_copy f i)
    refine ⟨by rw [List.foldl_cons, hB]; rfl, by rw [List.foldl_cons, hC]; rfl, fun n => ?_⟩
    rw [List.foldl_cons, hA]
    by_cases h1 : n ∈ l
    · simp [h1, mul_copy]
    · by_cases h2 : n = i <;> simp [h1, h2, mul_copy, get_store]

theorem frame_A (C0 A B : Matrix4x4) (j i : Fin 4) :
    (multiply_matrix_frame C0 A B).A.get (idx j i) = dot A B j i := by
  unfold multiply_matrix_frame
  rw [(mul_copy_fold _ _).2.2, if_pos (List.mem_finRange _), mul_cols_C]

theorem frame_B (C0 A B : Matrix4x4) : (multiply_matrix_frame C0 A B).B = B := by
  unfold multiply_matrix_frame
  rw [(mul_copy_fold _ _).1, (mul_cols_AB _ _ _).2]

theorem multiply_get (A B : Matrix4x4) (j i : Fin 4) :
    (multiply_matrix A B).get (idx j i) =
      A.get (idx 0 i) * B.get (idx j 0) + A.get (idx 1 i) * B.get (idx j 1) +
      A.get (idx 2 i) * B.get (idx j 2) + A.get (idx 3 i) * B.get (idx j 3) := by
  rw [multiply_matrix, frame_A, dot, Fin.sum_univ_four]

/-- C1: `multiply_matrix(A, B)` leaves in `A` the 4x4 product of the old `A` with `B` in
column-major layout: the new `A[j*4+i]` is the sum over `k` of (old `A[k*4+i]`) times
`B[j*4+k]`, whatever the local buffer `C` held on entry; `B` is not modified. -/
theorem multiply_matrix_product (C0 A B : Matrix4x4) :
    (∀ j i : Fin 4, (multiply_matrix_frame C0 A B).A.get (idx j i) =
        ∑ k : Fin 4, A.get (idx k i) * B.get (idx j k)) ∧
    (multiply_matrix_frame C0 A B).B = B ∧
    (∀ j i : Fin 4, (multiply_matrix A B).get (idx j i) =
        ∑ k : Fin 4, A.get (idx k i) * B.get (idx j k)) :=
  ⟨fun j i => frame_A C0 A B j i, frame_B C0 A B, fun j i => frame_A uninit A B j i⟩

/-! ## The matrices the program builds -/

theorem lit_idx : (0 : Fin 16) = idx 0 0 ∧ (2 : Fin 16) = idx 0 2 ∧ (5 : Fin 16) = idx 1 1 ∧
    (6 : Fin 16) = idx 1 2 ∧ (8 : Fin 16) = idx 2 0 ∧ (9 : Fin 16) = idx 2 1 ∧
    (10 : Fin 16) = idx 2 2 ∧ (12 : Fin 16) = idx 3 0 ∧ (13 : Fin 16) = idx 3 1 ∧
    (14 : Fin 16) = idx 3 2 ∧ (15 : Fin 16) = idx 3 3 := by
  decide

theorem zero_loop_get (m : Matrix4x4) (n : Fin 16) :
    ((List.finRange 16).foldl (fun m i => store m i 0) m).get n = 0 := by
  rw [fold_store_get (fun _ => 0), if_pos (List.mem_finRange n)]

theorem identity_get (m : Matrix4x4) (j i : Fin 4) :
    (identity_matrix m).get (idx j i) = if j = i then 1 else 0 := by
  simp only [identity_matrix, lit_idx, store_idx, zero_loop_get]
  fin_cases j <;> fin_cases i <;> simp

theorem identity_matrix_eq (m m2 : Matrix4x4) : identity_matrix m = identity_matrix m2 :=
  matrix_ext fun j i => by rw [identity_get, identity_get]

theorem translation_get (x y z : ℚ) (j i : Fin 4) :
    (translation_matrix x y z).get (idx j i) =
      if j = 3 ∧ i = 2 then z else if j = 3 ∧ i = 1 then y else if j = 3 ∧ i = 0 then x
      else if j = i then 1 else 0 := by
  simp only [translation_matrix, lit_idx, store_idx, identity_get]

theorem rotation_y_get (c s : ℚ) (j i : Fin 4) :
    (rotation_y_matrix c s).get (idx j i) =
      if j = 2 ∧ i = 2 then c else if j = 2 ∧ i = 0 then -s else if j = 0 ∧ i = 2 then s
      else if j = 0 ∧ i = 0 then c else if j = i then 1 else 0 := by
  simp only [rotation_y_matrix, lit_idx, store_idx, identity_get]

theorem mul_identity (M m0 : Matrix4x4) : multiply_matrix M (identity_matrix m0) = M := by
  apply matrix_ext
  intro j i
  rw [multiply_get]
  simp only [identity_get]
  fin_cases j <;> simp

theorem identity_mul (M m0 : Matrix4x4) : multiply_matrix (identity_matrix m0) M = M := by
  apply matrix_ext
  intro j i
  rw [multiply_get]
  simp only [identity_get]
  fin_cases i <;> simp

/-- C2: the matrix built by `identity_matrix` is neutral for `multiply_matrix` on both
sides: `multiply_matrix(M, I)` leaves `M` and `multiply_matrix(I, M)` leaves `M` in the
first operand. -/
theorem identity_neutral (M m0 : Matrix4x4) :
    multiply_matrix M (identity_matrix m0) = M ∧
    multiply_matrix (identity_matrix m0) M = M :=
  ⟨mul_identity M m0, identity_mul M m0⟩

theorem translate_current (x y z : ℚ) (s : State) :
    (my_translatef x y z s).CurrentMatrix =
      multiply_matrix s.CurrentMatrix (translation_matrix x y z) := rfl

theorem rotate_current (lm : Libm) (angle : ℚ) (s : State) :
    (my_rotatef_y lm angle s).CurrentMatrix =
      multiply_matrix s.CurrentMatrix
        (rotation_y_matrix (lm.cosf (angle * PI / 180)) (lm.sinf (angle * PI / 180))) := rfl

theorem translate_cancel (M : Matrix4x4) (x y z : ℚ) :
    multiply_matrix (multiply_matrix M (translation_matrix x y z))
      (translation_matrix (-x) (-y) (-z)) = M := by
  apply matrix_ext
  intro j i
  simp only [multiply_get, translation_get]
  fin_cases j <;> simp
  ring

theorem quarter_turn_four (M : Matrix4x4) :
    multiply_matrix (multiply_matrix (multiply_matrix (multiply_matrix M
      (rotation_y_matrix 0 1)) (rotation_y_matrix 0 1)) (rotation_y_matrix 0 1))
      (rotation_y_matrix 0 1) = M := by
  apply matrix_ext
  intro j i
  simp only [multiply_get, rotation_y_get]
  fin_cases j <;> simp

/-! ## The matrix stack -/

theorem slot_some (n : Nat) (i : Int) (h0 : 0 ≤ i) (h1 : i < n) :
    ∃ a : Fin n, slot n i = some a ∧ (a.val : Int) = i := by
  refine ⟨⟨i.toNat, by omega⟩, ?_, ?_⟩
  · simp [slot, h0, h1]
  · simp [Int.toNat_of_nonneg h0]

theorem push_full (s : State) (h : s.stack_ptr ≥ 32) :
    push_matrix s = some { s with out := s.out ++ [GLCall.printf overflow_msg] } := by
  simp [push_matrix, STACK_DEPTH, h, emit]

theorem push_ok (s : State) (p : Fin 32) (hp : slot 32 s.stack_ptr = some p)
    (h : s.stack_ptr < 32) :
    push_matrix s = some { s with MATRIX_STACK := s.MATRIX_STACK.set p s.CurrentMatrix,
                                  stack_ptr := s.stack_ptr + 1 } := by
  have h2 : ¬ (s.stack_ptr ≥ STACK_DEPTH) := by simp [STACK_DEPTH]; omega
  simp [push_matrix, h2, hp, copy_matrix_eq]

theorem pop_empty (s : State) (h : s.stack_ptr ≤ 0) :
    pop_matrix s = some { s with out := s.out ++ [GLCall.printf underflow_msg] } := by
  simp [pop_matrix, h, emit]

theorem pop_ok (s : State) (p : Fin 32) (hp : slot 32 (s.stack_ptr - 1) = some p)
    (h : 0 < s.stack_ptr) :
    pop_matrix s = some { s with stack_ptr := s.stack_ptr - 1,
                                 CurrentMatrix := s.MATRIX_STACK.get p,
                                 out := s.out ++ [GLCall.glLoadMatrixf (s.MATRIX_STACK.get p)] } := by
  have h2 : ¬ (s.stack_ptr ≤ 0) := by omega
  simp [pop_matrix, h2, hp, copy_matrix_eq, load_current]

theorem emit_same (c : GLCall) (s : State) : SameStack s (emit c s) := by
  simp only [SameStack, emit, and_self]

theorem load_current_same (s : State) : SameStack s (load_current s) := by
  simp only [SameStack, load_current, and_self]

theorem translate_same (x y z : ℚ) (s : State) : SameStack s (my_translatef x y z s) := by
  simp only [SameStack, my_translatef, load_current, and_self]

theorem rotate_same (lm : Libm) (angle : ℚ) (s : State) : SameStack s (my_rotatef_y lm angle s) := by
  simp only [SameStack, my_rotatef_y, load_current, and_self]

theorem planet_at_some (i : Int) (h0 : 0 ≤ i) (h1 : i < 9) :
    ∃ pl, planet_at i = some pl ∧ (1 ≤ i → 0 < pl.orbital_period) := by
  interval_cases i <;> simp [planet_at, planets]

theorem display_begin_same (V : Matrix4x4) (s : State) :
    ∃ t, display_begin V s = some t ∧ SameStack s t ∧ t.CurrentMatrix = V := by
  obtain ⟨pl, hpl, _⟩ := planet_at_some 0 (by omega) (by omega)
  simp only [display_begin, hpl, Option.bind_eq_bind, Option.some_bind, Option.some.injEq,
    exists_eq_left']
  simp only [SameStack, draw_sphere, emit, load_current, and_self]

theorem planet_transform_same (lm : Libm) (i : Int) (s : State) (h0 : 1 ≤ i) (h1 : i < 9) :
    ∃ t, planet_transform lm i s = some t ∧ SameStack s t := by
  obtain ⟨a, ha, _⟩ := slot_some 8 (i - 1) (by omega) (by omega)
  obtain ⟨pl, hpl, _⟩ := planet_at_some i (by omega) h1
  simp only [planet_transform, ha, hpl, Option.bind_eq_bind, Option.some_bind, Option.some.injEq,
    exists_eq_left']
  simp only [SameStack, draw_sphere, emit, load_current, my_rotatef_y, my_translatef, and_self]

theorem ring_transform_same (i : Int) (s : State) (h0 : 0 ≤ i) (h1 : i < 9) :
    ∃ t, ring_transform i s = some t ∧ SameStack s t := by
  obtain ⟨pl, hpl, _⟩ := planet_at_some i h0 h1
  simp only [ring_transform, hpl, Option.bind_eq_bind, Option.some_bind, Option.some.injEq,
    exists_eq_left']
  simp only [SameStack, emit, load_current, and_self]

theorem mem_loop_range (lo hi i : Int) (h : i ∈ loop_range lo hi) : lo ≤ i ∧ i < hi := by
  simp only [loop_range, List.mem_map, List.mem_range] at h
  obtain ⟨n, hn, rfl⟩ := h
  simp only [Int.ofNat_eq_coe]
  omega

theorem animate_planet_same (ps : ℚ) (s : State) (i : Int) (h0 : 0 ≤ i) (h1 : i < 8) :
    ∃ t, animate_planet ps s i = some t ∧ SameStack s t ∧ t.rotation = s.rotation := by
  obtain ⟨pl, hpl, hpos⟩ := planet_at_some (i + 1) (by omega) (by omega)
  obtain ⟨a, ha, _⟩ := slot_some 8 i h0 (by omega)
  have hne : pl.orbital_period ≠ 0 := ne_of_gt (hpos (by omega))
  simp only [animate_planet, hpl, fdiv, hne, ha, if_false, Option.bind_eq_bind, Option.some_bind]
  split
  · simp only [Option.some.injEq, exists_eq_left', SameStack, and_self]
  · simp only [Option.some.injEq, exists_eq_left', SameStack, and_self]

theorem push_inv (s : State) (h : Inv s) : ∃ t, push_matrix s = some t ∧ Inv t := by
  obtain ⟨h0, h1⟩ := h
  simp only [STACK_DEPTH] at h1
  by_cases hf : s.stack_ptr ≥ 32
  · exact ⟨_, push_full s hf, by simp only [Inv, STACK_DEPTH]; omega⟩
  · obtain ⟨p, hp, _⟩ := slot_some 32 s.stack_ptr h0 (by omega)
    exact ⟨_, push_ok s p hp (by omega), by simp only [Inv, STACK_DEPTH]; omega⟩

theorem pop_inv (s : State) (h : Inv s) : ∃ t, pop_matrix s = some t ∧ Inv t := by
  obtain ⟨h0, h1⟩ := h
  simp only [STACK_DEPTH] at h1
  by_cases hf : s.stack_ptr ≤ 0
  · exact ⟨_, pop_empty s hf, by simp only [Inv, STACK_DEPTH]; omega⟩
  · obtain ⟨p, hp, _⟩ := slot_some 32 (s.stack_ptr - 1) (by omega) (by omega)
    exact ⟨_, pop_ok s p hp (by omega), by simp only [Inv, STACK_DEPTH]; omega⟩

theorem same_stack_inv {s t : State} (h : SameStack s t) (hs : Inv s) : Inv t := by
  unfold Inv at *
  rw [h.1]
  exact hs

theorem same_stack_trans {s t u : State} (h1 : SameStack s t) (h2 : SameStack t u) :
    SameStack s u :=
  ⟨h2.1.trans h1.1, h2.2.trans h1.2⟩

theorem ring_block_inv (i : Int) (s : State) (h0 : 0 ≤ i) (h1 : i < 9) (h : Inv s) :
    ∃ t, ring_block i s = some t ∧ Inv t := by
  unfold ring_block
  split
  · obtain ⟨t1, e1, i1⟩ := push_inv s h
    obtain ⟨t2, e2, i2⟩ := ring_transform_same i t1 h0 h1
    obtain ⟨t3, e3, i3⟩ := pop_inv t2 (same_stack_inv i2 i1)
    exact ⟨t3, by simp only [e1, e2, e3, Option.bind_eq_bind, Option.some_bind], i3⟩
  · exact ⟨s, rfl, h⟩

theorem display_planet_inv (lm : Libm) (s : State) (i : Int) (h : Inv s) (hi : 1 ≤ i ∧ i < 9) :
    ∃ t, display_planet lm s i = some t ∧ Inv t := by
  obtain ⟨t1, e1, i1⟩ := push_inv s h
  obtain ⟨t2, e2, i2⟩ := planet_transform_same lm i t1 hi.1 hi.2
  obtain ⟨t3, e3, i3⟩ := ring_block_inv i t2 (by omega) hi.2 (same_stack_inv i2 i1)
  obtain ⟨t4, e4, i4⟩ := pop_inv t3 i3
  exact ⟨t4, by simp only [display_planet, e1, e2, e3, e4, Option.bind_eq_bind, Option.some_bind],
    i4⟩

theorem foldlM_keeps (P : State → Prop) (Q : Int → Prop) (f : State → Int → Option State)
    (hf : ∀ s i, P s → Q i → ∃ t, f s i = some t ∧ P t) (l : List Int) :
    ∀ s, P s → (∀ i ∈ l, Q i) → ∃ t, l.foldlM f s = some t ∧ P t := by
  induction l with
  | nil => exact fun s hs _ => ⟨s, rfl, hs⟩
  | cons i l ih =>
    intro s hs hq
    obtain ⟨t, e, ht⟩ := hf s i hs (hq i (List.mem_cons_self i l))
    obtain ⟨u, e2, hu⟩ := ih t ht (fun k hk => hq k (List.mem_cons_of_mem i hk))
    exact ⟨u, by simp only [List.foldlM_cons, e, e2, Option.bind_eq_bind, Option.some_bind], hu⟩

theorem display_inv (lm : Libm) (V : Matrix4x4) (s : State) (h : Inv s) :
    ∃ t, display lm V s = some t ∧ Inv t := by
  obtain ⟨t1, e1, i1, _⟩ := display_begin_same V s
  obtain ⟨t2, e2, i2⟩ := foldlM_keeps Inv (fun i => 1 ≤ i ∧ i < 9) (display_planet lm)
    (display_planet_inv lm) (loop_range 1 9) t1 (same_stack_inv i1 h)
    (fun i hi => mem_loop_range 1 9 i hi)
  refine ⟨emit GLCall.glFlush t2, ?_, same_stack_inv (emit_same _ t2) i2⟩
  simp only [display, display_loop, e1, e2, Option.bind_eq_bind, Option.some_bind]

theorem animate_same (s : State) : ∃ t, animate s = some t ∧ SameStack s t := by
  obtain ⟨t, e, ht⟩ := foldlM_keeps (fun u => SameStack s u) (fun i => 0 ≤ i ∧ i < 8)
    (animate_planet (1 / 100))
    (fun u i hu hi => by
      obtain ⟨v, ev, hv, _⟩ := animate_planet_same (1 / 100) u i hi.1 hi.2
      exact ⟨v, ev, same_stack_trans hu hv⟩)
    (loop_range 0 8) s ⟨rfl, rfl⟩ (fun i hi => mem_loop_range 0 8 i hi)
  simp only [animate, e, Option.bind_eq_bind, Option.some_bind, Option.some.injEq,
    exists_eq_left']
  split
  · exact same_stack_trans ht (emit_same _ _)
  · exact same_stack_trans ht (emit_same _ _)

/-! ## Depth under sequences of calls -/

theorem peak_from_ge (ops : List Op) : ∀ h, h ≤ peak_from h ops := by
  induction ops with
  | nil => exact fun h => le_refl h
  | cons op ops _ => exact fun h => le_max_left _ _

theorem run_cons (lm : Libm) (op : Op) (ops : List Op) (s t : State) (h : step lm s op = some t) :
    run lm (op :: ops) s = run lm ops t := by
  simp only [run, List.foldlM_cons, h, Option.bind_eq_bind, Option.some_bind]

theorem run_depth (lm : Libm) (d : Int) (hd : 0 ≤ d) (ops : List Op) :
    ∀ (s : State) (h : Int), 0 ≤ h → s.stack_ptr = d + h → well_nested_from h ops = true →
      d + peak_from h ops ≤ 32 → ∃ t, run lm ops s = some t ∧ t.stack_ptr = d := by
  induction ops with
  | nil =>
    intro s h _ hs hw _
    simp only [well_nested_from, beq_iff_eq] at hw
    exact ⟨s, rfl, by omega⟩
  | cons op ops ih =>
    intro s h hh hs hw hp
    simp only [well_nested_from, Bool.and_eq_true, decide_eq_true_eq] at hw
    simp only [peak_from] at hp
    have hp1 : d + h ≤ 32 := by have := le_max_left h (peak_from (h + delta op) ops); omega
    have hp2 : d + peak_from (h + delta op) ops ≤ 32 := by
      have := le_max_right h (peak_from (h + delta op) ops); omega
    have hge := peak_from_ge ops (h + delta op)
    cases op with
    | push =>
      simp only [delta] at hw hp2 hge
      obtain ⟨p, hslot, _⟩ := slot_some 32 s.stack_ptr (by omega) (by omega)
      have e := push_ok s p hslot (by omega)
      rw [run_cons lm Op.push ops s _ e]
      exact ih _ (h + 1) (by omega) (by simp only; omega) hw.2 hp2
    | pop =>
      simp only [delta] at hw hp2 hge
      obtain ⟨p, hslot, _⟩ := slot_some 32 (s.stack_ptr - 1) (by omega) (by omega)
      have e := pop_ok s p hslot (by omega)
      rw [run_cons lm Op.pop ops s _ e]
      exact ih _ (h + -1) (by omega) (by simp only; omega) hw.2 hp2
    | translate x y z =>
      simp only [delta, add_zero] at hw hp2
      rw [run_cons lm (Op.translate x y z) ops s _ rfl]
      exact ih _ h hh (by rw [(translate_same x y z s).1]; exact hs) hw.2 hp2
    | rotateY angle =>
      simp only [delta, add_zero] at hw hp2
      rw [run_cons lm (Op.rotateY angle) ops s _ rfl]
      exact ih _ h hh (by rw [(rotate_same lm angle s).1]; exact hs) hw.2 hp2

/-! ## Push and pop -/

/-- C3 (amended): for every state whose depth is in 0..31, whatever the slots and the
current transform hold, `push_matrix()` followed by `pop_matrix()` leaves the current
transform (and the depth) as it was before the push. -/
theorem push_pop_restores (s : State) (h0 : 0 ≤ s.stack_ptr) (h1 : s.stack_ptr < 32) :
    ∃ t u, push_matrix s = some t ∧ pop_matrix t = some u ∧
      u.CurrentMatrix = s.CurrentMatrix ∧ u.stack_ptr = s.stack_ptr := by
  obtain ⟨p, hp, _⟩ := slot_some 32 s.stack_ptr h0 h1
  have e1 := push_ok s p hp h1
  refine ⟨_, _, e1, pop_ok _ p ?_ ?_, ?_, ?_⟩
  · simp only [add_sub_cancel_right]
    exact hp
  · simp only
    omega
  · simp only [Mathlib.Vector.get_set_same]
  · simp only [add_sub_cancel_right]

/-- Instance of `push_pop_restores` at program start. -/
theorem push_pop_restores_witness :
    (0 ≤ init.stack_ptr ∧ init.stack_ptr < 32) ∧
    ∃ t u, push_matrix init = some t ∧ pop_matrix t = some u ∧
      u.CurrentMatrix = init.CurrentMatrix ∧ u.stack_ptr = init.stack_ptr :=
  ⟨by decide, push_pop_restores init (by decide) (by decide)⟩

/-- C3 (as stated, refuted at depth 32): on the full stack `full_stack` the push takes
its overflow branch and stores nothing, so the following pop replaces the identity
current transform by the zero matrix of slot 31. -/
theorem push_pop_full_stack_changes :
    full_stack.stack_ptr = 32 ∧
    ∃ t u, push_matrix full_stack = some t ∧ pop_matrix t = some u ∧
      u.CurrentMatrix ≠ full_stack.CurrentMatrix := by
  refine ⟨rfl, _, _, push_full full_stack (by decide), pop_ok _ 31 (by decide) (by decide), ?_⟩
  intro h
  have h2 := congrArg (fun m => Mathlib.Vector.get m (idx 0 0)) h
  simp only [full_stack, init, Mathlib.Vector.get_replicate, identity_get, if_true] at h2
  exact absurd h2 (by norm_num)

/-- C4 (amended): from every state of depth `d >= 0`, a well-nested word of pushes and
pops, interleaved with translate and rotateY calls, whose nesting depth `peak` satisfies
`d + peak <= 32` runs without an out-of-bounds access and ends at depth `d`. -/
theorem balanced_keeps_depth (lm : Libm) (ops : List Op) (s : State) (h0 : 0 ≤ s.stack_ptr)
    (hw : well_nested ops = true) (hp : s.stack_ptr + peak ops ≤ 32) :
    ∃ t, run lm ops s = some t ∧ t.stack_ptr = s.stack_ptr :=
  run_depth lm s.stack_ptr h0 ops s 0 (le_refl 0) (by omega) hw hp

/-- Instance of `balanced_keeps_depth`: two nested pairs at program start. -/
theorem balanced_keeps_depth_witness :
    (0 ≤ init.stack_ptr ∧
      well_nested [Op.push, Op.rotateY 90, Op.push, Op.translate 1 0 0, Op.pop, Op.pop] = true ∧
      init.stack_ptr +
        peak [Op.push, Op.rotateY 90, Op.push, Op.translate 1 0 0, Op.pop, Op.pop] ≤ 32) ∧
    ∃ t, run quarter_libm
        [Op.push, Op.rotateY 90, Op.push, Op.translate 1 0 0, Op.pop, Op.pop] init = some t ∧
      t.stack_ptr = init.stack_ptr :=
  ⟨⟨by decide, by decide, by decide⟩,
    balanced_keeps_depth quarter_libm _ init (by decide) (by decide) (by decide)⟩

/-- C4 (as stated, refuted at depth 32): the balanced word push, pop run on the full
stack ends at depth 31, because the push overflows and only the pop takes effect. -/
theorem balanced_full_stack_loses_depth :
    well_nested [Op.push, Op.pop] = true ∧ full_stack.stack_ptr = 32 ∧
    ∃ t, run quarter_libm [Op.push, Op.pop] full_stack = some t ∧ t.stack_ptr = 31 ∧
      t.stack_ptr ≠ full_stack.stack_ptr := by
  refine ⟨by decide, rfl, ?_⟩
  rw [run_cons quarter_libm Op.push [Op.pop] full_stack _ (push_full full_stack (by decide)),
    run_cons quarter_libm Op.pop [] _ _ (pop_ok _ 31 (by decide) (by decide))]
  exact ⟨_, rfl, by decide, by decide⟩

/-- C5: `pop_matrix()` takes its underflow branch, printing the underflow error, exactly
when `stack_ptr <= 0` on entry; the call then changes nothing else: current transform,
`stack_ptr` and every stack slot stay as they were and the only outside call is the
`printf`, so no transform is handed to `glLoadMatrixf`. -/
theorem pop_underflow (s : State) :
    ((∃ t, pop_matrix s = some t ∧ t.out = s.out ++ [GLCall.printf underflow_msg]) ↔
      s.stack_ptr ≤ 0) ∧
    (s.stack_ptr ≤ 0 →
      pop_matrix s = some { s with out := s.out ++ [GLCall.printf underflow_msg] }) := by
  refine ⟨⟨?_, fun h => ⟨_, pop_empty s h, rfl⟩⟩, pop_empty s⟩
  rintro ⟨t, e, ho⟩
  by_contra hn
  have hpos : 0 < s.stack_ptr := by omega
  cases hs : slot 32 (s.stack_ptr - 1) with
  | none =>
    have h2 : ¬ (s.stack_ptr ≤ 0) := hn
    simp [pop_matrix, h2, hs] at e
  | some p =>
    rw [pop_ok s p hs hpos] at e
    cases e
    simp at ho

/-- Instance of `pop_underflow` at program start, where the stack is empty. -/
theorem pop_underflow_witness :
    init.stack_ptr ≤ 0 ∧
    pop_matrix init = some { init with out := init.out ++ [GLCall.printf underflow_msg] } :=
  ⟨by decide, (pop_underflow init).2 (by decide)⟩

/-- C6: `push_matrix()` takes its overflow branch, printing the overflow error, exactly
when `stack_ptr >= 32` on entry, and then changes nothing else. Otherwise, for a stack
pointer in 0..31, slot `stack_ptr` becomes a copy of the current transform, `stack_ptr`
grows by exactly 1, and the other slots, the current transform and the output stay as
they were. -/
theorem push_overflow (s : State) :
    ((∃ t, push_matrix s = some t ∧ t.out = s.out ++ [GLCall.printf overflow_msg]) ↔
      s.stack_ptr ≥ 32) ∧
    (s.stack_ptr ≥ 32 →
      push_matrix s = some { s with out := s.out ++ [GLCall.printf overflow_msg] }) ∧
    (0 ≤ s.stack_ptr → s.stack_ptr < 32 →
      ∃ (p : Fin 32) (t : State), (p.val : Int) = s.stack_ptr ∧ push_matrix s = some t ∧
        t.MATRIX_STACK.get p = s.CurrentMatrix ∧ t.stack_ptr = s.stack_ptr + 1 ∧
        (∀ q, q ≠ p → t.MATRIX_STACK.get q = s.MATRIX_STACK.get q) ∧
        t.CurrentMatrix = s.CurrentMatrix ∧ t.out = s.out ∧
        t.revolution_angles = s.revolution_angles ∧ t.rotation = s.rotation) := by
  refine ⟨⟨?_, fun h => ⟨_, push_full s h, rfl⟩⟩, push_full s, ?_⟩
  · rintro ⟨t, e, ho⟩
    by_contra hn
    have hlt : s.stack_ptr < 32 := by omega
    cases hs : slot 32 s.stack_ptr with
    | none =>
      have h2 : ¬ (s.stack_ptr ≥ STACK_DEPTH) := by simp only [STACK_DEPTH]; omega
      simp [push_matrix, h2, hs] at e
    | some p =>
      rw [push_ok s p hs hlt] at e
      cases e
      simp at ho
  · intro h0 h1
    obtain ⟨p, hp, hv⟩ := slot_some 32 s.stack_ptr h0 h1
    refine ⟨p, _, hv, push_ok s p hp h1, ?_, rfl, ?_, rfl, rfl, rfl, rfl⟩
    · simp only [Mathlib.Vector.get_set_same]
    · intro q hq
      simp only
      rw [Mathlib.Vector.get_set_of_ne (Ne.symm hq)]

/-- Instances of `push_overflow`: the overflow branch on the full stack, and the storing
branch at program start. -/
theorem push_overflow_witness :
    (full_stack.stack_ptr ≥ 32 ∧
      push_matrix full_stack =
        some { full_stack with out := full_stack.out ++ [GLCall.printf overflow_msg] }) ∧
    ((0 ≤ init.stack_ptr ∧ init.stack_ptr < 32) ∧
      ∃ (p : Fin 32) (t : State), (p.val : Int) = init.stack_ptr ∧ push_matrix init = some t ∧
        t.MATRIX_STACK.get p = init.CurrentMatrix ∧ t.stack_ptr = init.stack_ptr + 1 ∧
        (∀ q, q ≠ p → t.MATRIX_STACK.get q = init.MATRIX_STACK.get q) ∧
        t.CurrentMatrix = init.CurrentMatrix ∧ t.out = init.out ∧
        t.revolution_angles = init.revolution_angles ∧ t.rotation = init.rotation) :=
  ⟨⟨by decide, (push_overflow full_stack).2.1 (by decide)⟩,
    ⟨by decide, (push_overflow init).2.2 (by decide) (by decide)⟩⟩

/-- C7: `0 <= stack_ptr <= 32` holds at program start and is kept by `push_matrix`,
`pop_matrix`, `my_translatef`, `my_rotatef_y`, `display` and `animate`; under it the
slot accesses of push and pop are in bounds (the calls return a state). Only push and
pop write `stack_ptr` or a stack slot: `my_translatef`, `my_rotatef_y` and `animate`
leave both as they were, and so does every part of `display` outside its push and pop
calls (the part before the loop, the per-planet transforms, the ring transform, the
final flush). -/
theorem stack_ptr_invariant (lm : Libm) (V : Matrix4x4) :
    Inv init ∧
    (∀ s, Inv s → ∃ t, push_matrix s = some t ∧ Inv t) ∧
    (∀ s, Inv s → ∃ t, pop_matrix s = some t ∧ Inv t) ∧
    (∀ s x y z, SameStack s (my_translatef x y z s) ∧ (Inv s → Inv (my_translatef x y z s))) ∧
    (∀ s angle, SameStack s (my_rotatef_y lm angle s) ∧
      (Inv s → Inv (my_rotatef_y lm angle s))) ∧
    (∀ s, Inv s → ∃ t, display lm V s = some t ∧ Inv t) ∧
    (∀ s, ∃ t, animate s = some t ∧ SameStack s t ∧ (Inv s → Inv t)) ∧
    (∀ s, ∃ t, display_begin V s = some t ∧ SameStack s t) ∧
    (∀ s i, 1 ≤ i → i < 9 → ∃ t, planet_transform lm i s = some t ∧ SameStack s t) ∧
    (∀ s i, 1 ≤ i → i < 9 → ∃ t, ring_transform i s = some t ∧ SameStack s t) ∧
    (∀ s, SameStack s (emit GLCall.glFlush s)) := by
  refine ⟨by decide, push_inv, pop_inv, ?_, ?_, display_inv lm V, ?_, ?_,
    fun s i h0 h1 => planet_transform_same lm i s h0 h1,
    fun s i h0 h1 => ring_transform_same i s (by omega) h1, fun s => emit_same _ s⟩
  · exact fun s x y z => ⟨translate_same x y z s, same_stack_inv (translate_same x y z s)⟩
  · exact fun s angle => ⟨rotate_same lm angle s, same_stack_inv (rotate_same lm angle s)⟩
  · intro s
    obtain ⟨t, e, h⟩ := animate_same s
    exact ⟨t, e, h, same_stack_inv h⟩
  · intro s
    obtain ⟨t, e, h, _⟩ := display_begin_same V s
    exact ⟨t, e, h⟩

/-- Instances of `stack_ptr_invariant` at program start: a push, a pop and a whole
`display` frame stay within the invariant. -/
theorem stack_ptr_invariant_witness :
    Inv init ∧ (∃ t, push_matrix init = some t ∧ Inv t) ∧
    (∃ t, pop_matrix init = some t ∧ Inv t) ∧
    (∃ t, display quarter_libm uninit init = some t ∧ Inv t) ∧
    (∃ t, planet_transform quarter_libm 6 init = some t ∧ SameStack init t) :=
  ⟨by decide, (stack_ptr_invariant quarter_libm uninit).2.1 init (by decide),
    (stack_ptr_invariant quarter_libm uninit).2.2.1 init (by decide),
    (stack_ptr_invariant quarter_libm uninit).2.2.2.2.2.1 init (by decide),
    (stack_ptr_invariant quarter_libm uninit).2.2.2.2.2.2.2.2.1 init 6 (by decide) (by decide)⟩

/-! ## Translation and rotation -/

/-- C8 (what the code builds): for cosine `c` and sine `s` the matrix of `my_rotatef_y`
has `c` at row 0, column 0 and at row 2, column 2, but `-s` at row 0, column 2 (flat
index 8) and `s` at row 2, column 0 (flat index 2), the other entries being those of the
identity: it is the transpose of the right-handed Y rotation. At the quarter turn
`c = 0`, `s = 1` the entry at row 0, column 2 is `-1`, not `1`. The current transform
after the call is (old current) times this matrix. -/
theorem rotation_y_matrix_layout (c s : ℚ) :
    (rotation_y_matrix c s).get (idx 0 0) = c ∧
    (rotation_y_matrix c s).get (idx 2 2) = c ∧
    (rotation_y_matrix c s).get (idx 2 0) = -s ∧
    (rotation_y_matrix c s).get (idx 0 2) = s ∧
    (∀ j i : Fin 4, (rotation_y_matrix c s).get (idx j i) =
      if j = 2 ∧ i = 2 then c else if j = 2 ∧ i = 0 then -s else if j = 0 ∧ i = 2 then s
      else if j = 0 ∧ i = 0 then c else (identity_matrix uninit).get (idx j i)) ∧
    (idx 2 0 = 8 ∧ idx 0 2 = 2) ∧
    ((rotation_y_matrix 0 1).get (idx 2 0) = -1 ∧ (rotation_y_matrix 0 1).get (idx 2 0) ≠ 1 ∧
      (rotation_y_matrix 0 1).get (idx 0 2) = 1) ∧
    (∀ (lm : Libm) (angle : ℚ) (st : State), (my_rotatef_y lm angle st).CurrentMatrix =
      multiply_matrix st.CurrentMatrix
        (rotation_y_matrix (lm.cosf (angle * PI / 180)) (lm.sinf (angle * PI / 180)))) := by
  refine ⟨?_, ?_, ?_, ?_, ?_, ⟨by decide, by decide⟩, ⟨?_, ?_, ?_⟩,
    fun lm angle st => rotate_current lm angle st⟩
  · rw [rotation_y_get]; simp
  · rw [rotation_y_get]; simp
  · rw [rotation_y_get]; simp
  · rw [rotation_y_get]; simp
  · intro j i
    rw [rotation_y_get, identity_get]
  · rw [rotation_y_get]; simp
  · rw [rotation_y_get]; simp; norm_num
  · rw [rotation_y_get]; simp

/-- C9: with exact scalars, `my_translatef(x, y, z)` followed by
`my_translatef(-x, -y, -z)` leaves the current transform as it was, for every current
transform and all `x`, `y`, `z`; in particular translating the identity by `(5, 0, 0)`
and then by `(-5, 0, 0)` gives the identity. -/
theorem translate_then_back (s : State) (x y z : ℚ) :
    (my_translatef (-x) (-y) (-z) (my_translatef x y z s)).CurrentMatrix = s.CurrentMatrix ∧
    (my_translatef (-5) 0 0 (my_translatef 5 0 0
      { s with CurrentMatrix := identity_matrix uninit })).CurrentMatrix =
        identity_matrix uninit := by
  constructor
  · rw [translate_current, translate_current, translate_cancel]
  · have h := translate_cancel (identity_matrix uninit) 5 0 0
    rw [neg_zero] at h
    rw [translate_current, translate_current]
    exact h

/-- C10: when `cosf` and `sinf` answer exactly 0 and 1 at 90 degrees, four calls of
`my_rotatef_y(90)` in a row leave the current transform as it was, and the fourth power
of the matrix built for that angle is the identity. -/
theorem four_quarter_turns (lm : Libm) (s : State) (hc : lm.cosf (90 * PI / 180) = 0)
    (hs : lm.sinf (90 * PI / 180) = 1) :
    (my_rotatef_y lm 90 (my_rotatef_y lm 90 (my_rotatef_y lm 90
      (my_rotatef_y lm 90 s)))).CurrentMatrix = s.CurrentMatrix ∧
    multiply_matrix (multiply_matrix (multiply_matrix
      (rotation_y_matrix (lm.cosf (90 * PI / 180)) (lm.sinf (90 * PI / 180)))
      (rotation_y_matrix (lm.cosf (90 * PI / 180)) (lm.sinf (90 * PI / 180))))
      (rotation_y_matrix (lm.cosf (90 * PI / 180)) (lm.sinf (90 * PI / 180))))
      (rotation_y_matrix (lm.cosf (90 * PI / 180)) (lm.sinf (90 * PI / 180))) =
        identity_matrix uninit := by
  constructor
  · rw [rotate_current, rotate_current, rotate_current, rotate_current, hc, hs]
    exact quarter_turn_four s.CurrentMatrix
  · rw [hc, hs]
    have h := quarter_turn_four (identity_matrix uninit)
    rw [identity_mul (rotation_y_matrix 0 1) uninit] at h
    exact h

/-- Instance of `four_quarter_turns`: the quarter-turn stand-in for libm, at program
start. -/
theorem four_quarter_turns_witness :
    (quarter_libm.cosf (90 * PI / 180) = 0 ∧ quarter_libm.sinf (90 * PI / 180) = 1) ∧
    (my_rotatef_y quarter_libm 90 (my_rotatef_y quarter_libm 90 (my_rotatef_y quarter_libm 90
      (my_rotatef_y quarter_libm 90 init)))).CurrentMatrix = init.CurrentMatrix :=
  ⟨⟨rfl, rfl⟩, (four_quarter_turns quarter_libm init rfl rfl).1⟩


/-! ## Associativity -/

theorem multiply_assoc (A B C : Matrix4x4) :
    multiply_matrix (multiply_matrix A B) C = multiply_matrix A (multiply_matrix B C) := by
  apply matrix_ext
  intro j i
  simp only [multiply_get]
  ring

/-- C16: with exact scalars `multiply_matrix` is associative: composing `B` onto `A` and
then `C` onto the result gives the matrix obtained by composing onto `A` the product of
`B` and `C`; in particular for the rotation and translation matrices that `my_rotatef_y`
and `my_translatef` build, in either order. -/
theorem multiply_matrix_assoc (A B C : Matrix4x4) :
    multiply_matrix (multiply_matrix A B) C = multiply_matrix A (multiply_matrix B C) ∧
    (∀ c s x y z : ℚ,
      multiply_matrix (multiply_matrix A (rotation_y_matrix c s)) (translation_matrix x y z) =
        multiply_matrix A (multiply_matrix (rotation_y_matrix c s) (translation_matrix x y z)) ∧
      multiply_matrix (multiply_matrix A (translation_matrix x y z)) (rotation_y_matrix c s) =
        multiply_matrix A (multiply_matrix (translation_matrix x y z) (rotation_y_matrix c s))) :=
  ⟨multiply_assoc A B C, fun _ _ _ _ _ => ⟨multiply_assoc _ _ _, multiply_assoc _ _ _⟩⟩

/-! ## Affine transforms -/

theorem lit_row3 : (3 : Fin 16) = idx 0 3 ∧ (7 : Fin 16) = idx 1 3 ∧ (11 : Fin 16) = idx 2 3 := by
  decide

theorem affine_iff (m : Matrix4x4) :
    affine m ↔ ∀ j : Fin 4, m.get (idx j 3) = if j = 3 then 1 else 0 := by
  simp only [affine, lit_row3, lit_idx]
  constructor
  · rintro ⟨h0, h1, h2, h3⟩ j
    fin_cases j <;> simp [h0, h1, h2, h3]
  · intro h
    exact ⟨by simpa using h 0, by simpa using h 1, by simpa using h 2, by simpa using h 3⟩

theorem affine_mul (A B : Matrix4x4) (hA : affine A) (hB : affine B) :
    affine (multiply_matrix A B) := by
  rw [affine_iff] at *
  intro j
  rw [multiply_get, hA 0, hA 1, hA 2, hA 3, ← hB j]
  simp

theorem affine_identity (m : Matrix4x4) : affine (identity_matrix m) := by
  rw [affine_iff]
  intro j
  rw [identity_get]

theorem affine_translation (x y z : ℚ) : affine (translation_matrix x y z) := by
  rw [affine_iff]
  intro j
  rw [translation_get]
  fin_cases j <;> simp

theorem affine_rotation_y (c s : ℚ) : affine (rotation_y_matrix c s) := by
  rw [affine_iff]
  intro j
  rw [rotation_y_get]
  fin_cases j <;> simp

theorem ring_get (j i : Fin 4) :
    ring_matrix.get (idx j i) =
      if j = 2 ∧ i = 2 then 0 else if j = 2 ∧ i = 1 then -1 else if j = 1 ∧ i = 2 then 1
      else if j = 1 ∧ i = 1 then 0 else if j = i then 1 else 0 := by
  simp only [ring_matrix, lit_idx, store_idx, identity_get]

theorem affine_ring : affine ring_matrix := by
  rw [affine_iff]
  intro j
  rw [ring_get]
  fin_cases j <;> simp

theorem slot_val (n : Nat) (i : Int) (a : Fin n) (h : slot n i = some a) : (a.val : Int) = i := by
  unfold slot at h
  split at h
  · rename_i hb
    cases h
    simp [Int.toNat_of_nonneg hb.1]
  · cases h

theorem push_affine (s t : State) (hs : AffineState s) (h : push_matrix s = some t) :
    AffineState t := by
  by_cases hf : s.stack_ptr ≥ 32
  · rw [push_full s hf] at h
    cases h
    exact hs
  · cases hp : slot 32 s.stack_ptr with
    | none =>
      have h2 : ¬ (s.stack_ptr ≥ STACK_DEPTH) := by simp only [STACK_DEPTH]; omega
      simp [push_matrix, h2, hp] at h
    | some p =>
      rw [push_ok s p hp (by omega)] at h
      cases h
      have hv := slot_val 32 _ p hp
      refine ⟨hs.1, fun q hq => ?_⟩
      simp only at hq ⊢
      by_cases hqp : q = p
      · rw [hqp, Mathlib.Vector.get_set_same]
        exact hs.1
      · rw [Mathlib.Vector.get_set_of_ne (Ne.symm hqp)]
        apply hs.2
        have : q.val ≠ p.val := fun e => hqp (Fin.ext e)
        omega

theorem pop_affine (s t : State) (hs : AffineState s) (h : pop_matrix s = some t) :
    AffineState t := by
  by_cases hf : s.stack_ptr ≤ 0
  · rw [pop_empty s hf] at h
    cases h
    exact hs
  · cases hp : slot 32 (s.stack_ptr - 1) with
    | none => simp [pop_matrix, hf, hp] at h
    | some p =>
      rw [pop_ok s p hp (by omega)] at h
      cases h
      have hv := slot_val 32 _ p hp
      refine ⟨hs.2 p (by omega), fun q hq => hs.2 q ?_⟩
      simp only at hq
      omega

theorem translate_affine (x y z : ℚ) (s : State) (hs : AffineState s) :
    AffineState (my_translatef x y z s) :=
  ⟨by rw [translate_current]; exact affine_mul _ _ hs.1 (affine_translation x y z),
    fun p hp => by
      rw [(translate_same x y z s).2]
      rw [(translate_same x y z s).1] at hp
      exact hs.2 p hp⟩

theorem rotate_affine (lm : Libm) (angle : ℚ) (s : State) (hs : AffineState s) :
    AffineState (my_rotatef_y lm angle s) :=
  ⟨by rw [rotate_current]; exact affine_mul _ _ hs.1 (affine_rotation_y _ _),
    fun p hp => by
      rw [(rotate_same lm angle s).2]
      rw [(rotate_same lm angle s).1] at hp
      exact hs.2 p hp⟩

theorem identity_start_affine : AffineState identity_start := by
  refine ⟨affine_identity _, fun p hp => ?_⟩
  have h0 : identity_start.stack_ptr = 0 := rfl
  rw [h0] at hp
  omega

/-- C17: a last row `[0, 0, 0, 1]` is kept by the transform pipeline: `identity_matrix`
builds an affine matrix, so do `my_translatef`, `my_rotatef_y` and the ring block, the
product of two affine matrices computed by `multiply_matrix` is affine, and when the
current transform and every saved stack slot are affine before `my_translatef`,
`my_rotatef_y`, `push_matrix` or `pop_matrix`, they are affine after the call. -/
theorem affine_invariant (lm : Libm) :
    (∀ m, affine (identity_matrix m)) ∧
    (∀ x y z, affine (translation_matrix x y z)) ∧
    (∀ c s, affine (rotation_y_matrix c s)) ∧
    affine ring_matrix ∧
    (∀ A B, affine A → affine B → affine (multiply_matrix A B)) ∧
    (∀ s x y z, AffineState s → AffineState (my_translatef x y z s)) ∧
    (∀ s angle, AffineState s → AffineState (my_rotatef_y lm angle s)) ∧
    (∀ s t, AffineState s → push_matrix s = some t → AffineState t) ∧
    (∀ s t, AffineState s → pop_matrix s = some t → AffineState t) ∧
    (∀ s, Inv s → AffineState s → ∃ t, push_matrix s = some t ∧ AffineState t) ∧
    (∀ s, Inv s → AffineState s → ∃ t, pop_matrix s = some t ∧ AffineState t) := by
  refine ⟨affine_identity, affine_translation, affine_rotation_y, affine_ring, affine_mul,
    fun s x y z => translate_affine x y z s, fun s angle => rotate_affine lm angle s,
    fun s t hs h => push_affine s t hs h, fun s t hs h => pop_affine s t hs h, ?_, ?_⟩
  · intro s hi hs
    obtain ⟨t, e, _⟩ := push_inv s hi
    exact ⟨t, e, push_affine s t hs e⟩
  · intro s hi hs
    obtain ⟨t, e, _⟩ := pop_inv s hi
    exact ⟨t, e, pop_affine s t hs e⟩

/-- Instances of `affine_invariant` on the state with the identity as current transform:
a translation, a rotation, a push and a pop keep it affine, and the product of the
translation and rotation matrices is affine. -/
theorem affine_invariant_witness :
    AffineState identity_start ∧ Inv identity_start ∧
    affine (multiply_matrix (translation_matrix 5 0 0) (rotation_y_matrix 0 1)) ∧
    AffineState (my_translatef 5 0 0 identity_start) ∧
    AffineState (my_rotatef_y quarter_libm 90 identity_start) ∧
    (∃ t, push_matrix identity_start = some t ∧ AffineState t) ∧
    (∃ t, pop_matrix identity_start = some t ∧ AffineState t) :=
  ⟨identity_start_affine, by decide,
    (affine_invariant quarter_libm).2.2.2.2.1 _ _ (affine_translation 5 0 0)
      (affine_rotation_y 0 1),
    (affine_invariant quarter_libm).2.2.2.2.2.1 identity_start 5 0 0 identity_start_affine,
    (affine_invariant quarter_libm).2.2.2.2.2.2.1 identity_start 90 identity_start_affine,
    (affine_invariant quarter_libm).2.2.2.2.2.2.2.2.2.1 identity_start (by decide)
      identity_start_affine,
    (affine_invariant quarter_libm).2.2.2.2.2.2.2.2.2.2 identity_start (by decide)
      identity_start_affine⟩

/-! ## The ring matrix -/

theorem ring_turn_four (M : Matrix4x4) :
    multiply_matrix (multiply_matrix (multiply_matrix (multiply_matrix M ring_matrix)
      ring_matrix) ring_matrix) ring_matrix = M := by
  apply matrix_ext
  intro j i
  simp only [multiply_get, ring_get]
  fin_cases j <;> simp

theorem ring_is_standard : ring_matrix = standard_rotation_x 0 1 := by
  apply matrix_ext
  intro j i
  rw [ring_get]
  fin_cases j <;> fin_cases i <;>
    (simp [standard_rotation_x, idx, Mathlib.Vector.get] <;> rfl)

theorem ring_transform_saturn (s : State) :
    ∃ pl, planet_at 6 = some pl ∧ pl.radius = 12 / 10 ∧
      ring_transform 6 s = some { s with
        CurrentMatrix := multiply_matrix s.CurrentMatrix ring_matrix,
        out := s.out ++ [GLCall.glLoadMatrixf (multiply_matrix s.CurrentMatrix ring_matrix),
          GLCall.glColor3f (5 / 10) (5 / 10) (5 / 10), GLCall.gluNewQuadric,
          GLCall.gluDisk (pl.radius * (125 / 100)) (pl.radius * (175 / 100)) 32 32,
          GLCall.gluDeleteQuadric] } := by
  refine ⟨⟨"Saturn", 12 / 10, 18, 10759⟩, by simp [planet_at, planets], rfl, ?_⟩
  have h : planet_at 6 = some ⟨"Saturn", 12 / 10, 18, 10759⟩ := by simp [planet_at, planets]
  simp only [ring_transform, h, Option.bind_eq_bind, Option.some_bind, emit, load_current,
    List.append_assoc, List.singleton_append, List.cons_append, List.nil_append]

/-- C19: the hand-built ring matrix of `display` (identity with `[5] = 0`, `[6] = 1`,
`[9] = -1`, `[10] = 0`) is the right-handed rotation about X with cosine 0 and sine 1 in
column-major layout: row 1/col 1 = 0, row 1/col 2 = -1, row 2/col 1 = 1, row 2/col 2 = 0,
identity elsewhere. It leaves the X axis fixed (its column 0 and row 0 are those of the
identity, and composing it keeps column 0 of any transform), and its fourth power is the
identity. The ring block applies it for body index 6 only, between a `push_matrix` and a
`pop_matrix`, and draws the disk with radii 1.25 and 1.75 times `planets[6].radius`. -/
theorem ring_matrix_quarter_turn_x :
    (ring_matrix.get (idx 1 1) = 0 ∧ ring_matrix.get (idx 2 1) = -1 ∧
      ring_matrix.get (idx 1 2) = 1 ∧ ring_matrix.get (idx 2 2) = 0) ∧
    (idx 1 1 = 5 ∧ idx 1 2 = 6 ∧ idx 2 1 = 9 ∧ idx 2 2 = 10) ∧
    (∀ j i : Fin 4, ring_matrix.get (idx j i) =
      if j = 1 ∧ i = 1 then 0 else if j = 2 ∧ i = 1 then -1 else if j = 1 ∧ i = 2 then 1
      else if j = 2 ∧ i = 2 then 0 else (identity_matrix uninit).get (idx j i)) ∧
    ring_matrix = standard_rotation_x 0 1 ∧
    (∀ i : Fin 4, ring_matrix.get (idx 0 i) = if i = 0 then 1 else 0) ∧
    (∀ j : Fin 4, ring_matrix.get (idx j 0) = if j = 0 then 1 else 0) ∧
    (∀ (M : Matrix4x4) (i : Fin 4),
      (multiply_matrix M ring_matrix).get (idx 0 i) = M.get (idx 0 i)) ∧
    multiply_matrix (multiply_matrix (multiply_matrix ring_matrix ring_matrix) ring_matrix)
      ring_matrix = identity_matrix uninit ∧
    (∀ (i : Int) (s : State), ring_block i s =
      if i = 6 then (push_matrix s).bind (fun t => (ring_transform 6 t).bind pop_matrix)
      else some s) ∧
    (∀ s : State, ∃ pl, planet_at 6 = some pl ∧
      ring_transform 6 s = some { s with
        CurrentMatrix := multiply_matrix s.CurrentMatrix ring_matrix,
        out := s.out ++ [GLCall.glLoadMatrixf (multiply_matrix s.CurrentMatrix ring_matrix),
          GLCall.glColor3f (5 / 10) (5 / 10) (5 / 10), GLCall.gluNewQuadric,
          GLCall.gluDisk (pl.radius * (125 / 100)) (pl.radius * (175 / 100)) 32 32,
          GLCall.gluDeleteQuadric] }) := by
  refine ⟨⟨?_, ?_, ?_, ?_⟩, by decide, ?_, ring_is_standard, ?_, ?_, ?_, ?_, ?_, ?_⟩
  · rw [ring_get]; simp
  · rw [ring_get]; simp
  · rw [ring_get]; simp
  · rw [ring_get]; simp
  · intro j i
    rw [ring_get, identity_get]
    fin_cases j <;> fin_cases i <;> simp
  · intro i
    rw [ring_get]
    fin_cases i <;> simp
  · intro j
    rw [ring_get]
    fin_cases j <;> simp
  · intro M i
    simp only [multiply_get, ring_get]
    simp
  · have h := ring_turn_four (identity_matrix uninit)
    rw [identity_mul ring_matrix uninit] at h
    exact h
  · intro i s
    unfold ring_block
    split
    · rename_i h
      subst h
      rfl
    · rfl
  · intro s
    obtain ⟨pl, h1, _, h3⟩ := ring_transform_saturn s
    exact ⟨pl, h1, h3⟩

/-! ## One frame of `display` -/

theorem quiet_refl (s : State) : Quiet s s :=
  ⟨[], by simp, by simp⟩

theorem quiet_trans {s t u : State} (h1 : Quiet s t) (h2 : Quiet t u) : Quiet s u := by
  obtain ⟨l1, e1, n1⟩ := h1
  obtain ⟨l2, e2, n2⟩ := h2
  refine ⟨l1 ++ l2, by rw [e2, e1, List.append_assoc], fun msg hm => ?_⟩
  rcases List.mem_append.mp hm with h | h
  · exact n1 msg h
  · exact n2 msg h

theorem same_anim_trans {s t u : State} (h1 : SameAnim s t) (h2 : SameAnim t u) :
    SameAnim s u :=
  ⟨h2.1.trans h1.1, h2.2.trans h1.2⟩

theorem push_step (s : State) (h0 : 0 ≤ s.stack_ptr) (h1 : s.stack_ptr < 32) :
    ∃ p t, slot 32 s.stack_ptr = some p ∧ push_matrix s = some t ∧
      t.stack_ptr = s.stack_ptr + 1 ∧ t.CurrentMatrix = s.CurrentMatrix ∧
      t.MATRIX_STACK = s.MATRIX_STACK.set p s.CurrentMatrix ∧ SameAnim s t ∧ t.out = s.out := by
  obtain ⟨p, hp, _⟩ := slot_some 32 s.stack_ptr h0 h1
  exact ⟨p, _, hp, push_ok s p hp h1, rfl, rfl, rfl, ⟨rfl, rfl⟩, rfl⟩

theorem pop_step (s : State) (h0 : 0 < s.stack_ptr) (h1 : s.stack_ptr ≤ 32) :
    ∃ p t, slot 32 (s.stack_ptr - 1) = some p ∧ pop_matrix s = some t ∧
      t.stack_ptr = s.stack_ptr - 1 ∧ t.CurrentMatrix = s.MATRIX_STACK.get p ∧
      t.MATRIX_STACK = s.MATRIX_STACK ∧ SameAnim s t ∧
      t.out = s.out ++ [GLCall.glLoadMatrixf (s.MATRIX_STACK.get p)] := by
  obtain ⟨p, hp, _⟩ := slot_some 32 (s.stack_ptr - 1) (by omega) (by omega)
  exact ⟨p, _, hp, pop_ok s p hp h0, rfl, rfl, rfl, ⟨rfl, rfl⟩, rfl⟩

theorem planet_step (lm : Libm) (i : Int) (s : State) (h0 : 1 ≤ i) (h1 : i < 9) :
    ∃ a pl t, slot 8 (i - 1) = some a ∧ planet_at i = some pl ∧
      planet_transform lm i s = some t ∧ SameStack s t ∧ SameAnim s t ∧
      t.CurrentMatrix = multiply_matrix (multiply_matrix (multiply_matrix s.CurrentMatrix
        (rotation_of lm (s.revolution_angles.get a))) (translation_matrix pl.distance 0 0))
        (rotation_of lm (s.rotation * (if i ≥ 5 then 2 else 1))) ∧
      ∃ m1 m2 r g b, t.out = s.out ++ [GLCall.glLoadMatrixf m1, GLCall.glLoadMatrixf m2,
        GLCall.glLoadMatrixf t.CurrentMatrix, GLCall.glColor3f r g b,
        GLCall.glutWireSphere pl.radius 20 16] := by
  obtain ⟨a, ha, _⟩ := slot_some 8 (i - 1) (by omega) (by omega)
  obtain ⟨pl, hpl, _⟩ := planet_at_some i (by omega) h1
  refine ⟨a, pl, ?_⟩
  simp only [planet_transform, ha, hpl, Option.bind_eq_bind, Option.some_bind, Option.some.injEq,
    exists_eq_left', true_and]
  simp only [SameStack, SameAnim, draw_sphere, emit, load_current, my_rotatef_y, my_translatef,
    rotation_of, and_self, true_and, List.append_assoc, List.singleton_append, List.cons_append,
    List.nil_append]
  exact ⟨_, _, _, _, _, rfl⟩

theorem ring_step (i : Int) (s : State) (h0 : 0 ≤ i) (h1 : i < 9) :
    ∃ pl t, planet_at i = some pl ∧ ring_transform i s = some t ∧ SameStack s t ∧
      SameAnim s t ∧ t.CurrentMatrix = multiply_matrix s.CurrentMatrix ring_matrix ∧
      t.out = s.out ++ [GLCall.glLoadMatrixf (multiply_matrix s.CurrentMatrix ring_matrix),
        GLCall.glColor3f (5 / 10) (5 / 10) (5 / 10), GLCall.gluNewQuadric,
        GLCall.gluDisk (pl.radius * (125 / 100)) (pl.radius * (175 / 100)) 32 32,
        GLCall.gluDeleteQuadric] := by
  obtain ⟨pl, hpl, _⟩ := planet_at_some i h0 h1
  refine ⟨pl, ?_⟩
  simp only [ring_transform, hpl, Option.bind_eq_bind, Option.some_bind, Option.some.injEq,
    exists_eq_left', true_and]
  simp only [SameStack, SameAnim, emit, load_current, and_self, true_and, List.append_assoc,
    List.singleton_append, List.cons_append, List.nil_append]

theorem ring_block_step (i : Int) (s : State) (hi0 : 0 ≤ i) (hi1 : i < 9)
    (h0 : 0 ≤ s.stack_ptr) (h1 : s.stack_ptr < 32) :
    ∃ t, ring_block i s = some t ∧ t.stack_ptr = s.stack_ptr ∧
      t.CurrentMatrix = s.CurrentMatrix ∧ SameAnim s t ∧ Quiet s t ∧
      (∀ q : Fin 32, (q.val : Int) < s.stack_ptr →
        t.MATRIX_STACK.get q = s.MATRIX_STACK.get q) ∧
      (i = 6 → ∃ r1 r2, push_matrix s = some r1 ∧ r1.stack_ptr = s.stack_ptr + 1 ∧
        ring_transform i r1 = some r2 ∧ r2.stack_ptr = s.stack_ptr + 1 ∧
        r2.CurrentMatrix = multiply_matrix s.CurrentMatrix ring_matrix ∧
        pop_matrix r2 = some t) := by
  by_cases h6 : i = 6
  · obtain ⟨p, r1, hp, e1, sp1, c1, st1, an1, o1⟩ := push_step s h0 h1
    obtain ⟨pl, r2, _, e2, ss2, an2, c2, o2⟩ := ring_step i r1 hi0 hi1
    obtain ⟨p3, t, hp3, e3, sp3, c3, st3, an3, o3⟩ :=
      pop_step r2 (by rw [ss2.1, sp1]; omega) (by rw [ss2.1, sp1]; omega)
    have hpp : p3 = p := by
      rw [ss2.1, sp1, add_sub_cancel_right, hp] at hp3
      exact (Option.some.inj hp3).symm
    have hv := slot_val 32 _ p hp
    refine ⟨t, ?_, ?_, ?_, same_anim_trans an1 (same_anim_trans an2 an3), ?_, ?_, ?_⟩
    · simp only [ring_block, h6, if_true, Option.bind_eq_bind]
      rw [← h6, e1, Option.some_bind, e2, Option.some_bind, e3]
    · rw [sp3, ss2.1, sp1]; omega
    · rw [c3, ss2.2, st1, hpp, Mathlib.Vector.get_set_same]
    · refine ⟨_, by rw [o3, o2, o1, List.append_assoc], fun msg hm => ?_⟩
      simp at hm
    · intro q hq
      rw [st3, ss2.2, st1, Mathlib.Vector.get_set_of_ne]
      intro e
      rw [e] at hv
      omega
    · intro _
      exact ⟨r1, r2, e1, sp1, e2, by rw [ss2.1, sp1], by rw [c2, c1], e3⟩
  · refine ⟨s, by simp only [ring_block, h6, if_false], rfl, rfl, ⟨rfl, rfl⟩, quiet_refl s,
      fun _ _ => rfl, fun h => absurd h h6⟩

theorem display_planet_step (lm : Libm) (s : State) (i : Int) (hi0 : 1 ≤ i) (hi1 : i < 9)
    (h0 : 0 ≤ s.stack_ptr) (h1 : s.stack_ptr + 2 ≤ 32) :
    ∃ a pl t1 t2 t3 t4, slot 8 (i - 1) = some a ∧ planet_at i = some pl ∧
      push_matrix s = some t1 ∧ t1.stack_ptr = s.stack_ptr + 1 ∧
      planet_transform lm i t1 = some t2 ∧ t2.stack_ptr = s.stack_ptr + 1 ∧
      t2.CurrentMatrix = multiply_matrix (multiply_matrix (multiply_matrix s.CurrentMatrix
        (rotation_of lm (s.revolution_angles.get a))) (translation_matrix pl.distance 0 0))
        (rotation_of lm (s.rotation * (if i ≥ 5 then 2 else 1))) ∧
      (∃ pre r g b, t2.out = pre ++ [GLCall.glLoadMatrixf t2.CurrentMatrix,
        GLCall.glColor3f r g b, GLCall.glutWireSphere pl.radius 20 16]) ∧
      ring_block i t2 = some t3 ∧ t3.stack_ptr = s.stack_ptr + 1 ∧
      (i = 6 → ∃ r1 r2, push_matrix t2 = some r1 ∧ r1.stack_ptr = s.stack_ptr + 2 ∧
        ring_transform i r1 = some r2 ∧ r2.stack_ptr = s.stack_ptr + 2 ∧
        r2.CurrentMatrix = multiply_matrix t2.CurrentMatrix ring_matrix ∧
        pop_matrix r2 = some t3) ∧
      pop_matrix t3 = some t4 ∧ display_planet lm s i = some t4 ∧
      t4.stack_ptr = s.stack_ptr ∧ t4.CurrentMatrix = s.CurrentMatrix ∧
      SameAnim s t4 ∧ Quiet s t4 := by
  obtain ⟨p, t1, hp, e1, sp1, c1, st1, an1, o1⟩ := push_step s h0 (by omega)
  obtain ⟨a, pl, t2, ha, hpl, e2, ss2, an2, c2, m1, m2, r, g, b, o2⟩ :=
    planet_step lm i t1 hi0 hi1
  have sp2 : t2.stack_ptr = s.stack_ptr + 1 := by rw [ss2.1, sp1]
  obtain ⟨t3, e3, sp3, c3, an3, q3, keep3, six3⟩ :=
    ring_block_step i t2 (by omega) hi1 (by omega) (by omega)
  obtain ⟨p4, t4, hp4, e4, sp4, c4, st4, an4, o4⟩ :=
    pop_step t3 (by omega) (by omega)
  have hpp : p4 = p := by
    rw [sp3, sp2, add_sub_cancel_right, hp] at hp4
    exact (Option.some.inj hp4).symm
  have hv := slot_val 32 _ p hp
  refine ⟨a, pl, t1, t2, t3, t4, ha, hpl, e1, sp1, e2, sp2, ?_, ?_, e3, by rw [sp3, sp2], ?_,
    e4, ?_, by rw [sp4, sp3, sp2]; omega, ?_,
    same_anim_trans an1 (same_anim_trans an2 (same_anim_trans an3 an4)), ?_⟩
  · rw [c2, c1, an1.1, an1.2]
  · exact ⟨t1.out ++ [GLCall.glLoadMatrixf m1, GLCall.glLoadMatrixf m2], r, g, b, by
      rw [o2]; simp⟩
  · intro h6
    obtain ⟨r1, r2, f1, f2, f3, f4, f5, f6⟩ := six3 h6
    exact ⟨r1, r2, f1, by rw [f2, sp2]; omega, f3, by rw [f4, sp2]; omega, f5, f6⟩
  · simp only [display_planet, e1, e2, e3, e4, Option.bind_eq_bind, Option.some_bind]
  · rw [c4, hpp, keep3 p (by rw [sp2]; omega), ss2.2, st1, Mathlib.Vector.get_set_same]
  · have qa : Quiet s t1 := ⟨[], by rw [o1]; simp, by simp⟩
    have qb : Quiet t1 t2 := ⟨_, o2, fun msg hm => by simp at hm⟩
    have qd : Quiet t3 t4 := ⟨_, o4, fun msg hm => by simp at hm⟩
    exact quiet_trans qa (quiet_trans qb (quiet_trans q3 qd))

theorem display_begin_step (V : Matrix4x4) (s : State) :
    ∃ b, display_begin V s = some b ∧ SameStack s b ∧ b.CurrentMatrix = V ∧ SameAnim s b ∧
      Quiet s b := by
  obtain ⟨pl, hpl, _⟩ := planet_at_some 0 (by omega) (by omega)
  simp only [display_begin, hpl, Option.bind_eq_bind, Option.some_bind, Option.some.injEq,
    exists_eq_left']
  simp only [SameStack, SameAnim, draw_sphere, emit, load_current, and_self, true_and]
  refine ⟨_, by simp only [List.append_assoc]; rfl, fun msg hm => ?_⟩
  simp at hm

theorem loop_upto_inv (lm : Libm) (b : State) (hb : b.stack_ptr = 0) (i : Int) (hi : i ≤ 9) :
    ∃ u, loop_upto lm b i = some u ∧ u.stack_ptr = 0 ∧ u.CurrentMatrix = b.CurrentMatrix ∧
      SameAnim b u ∧ Quiet b u := by
  refine foldlM_keeps
    (fun u => u.stack_ptr = 0 ∧ u.CurrentMatrix = b.CurrentMatrix ∧ SameAnim b u ∧ Quiet b u)
    (fun k => 1 ≤ k ∧ k < 9) (display_planet lm) ?_ (loop_range 1 i) b
    ⟨hb, rfl, ⟨rfl, rfl⟩, quiet_refl b⟩ ?_
  · rintro u k ⟨hu, hc, ha, hq⟩ ⟨hk0, hk1⟩
    obtain ⟨_, _, _, _, _, t4, _, _, _, _, _, _, _, _, _, _, _, _, e, sp, c, an, q⟩ :=
      display_planet_step lm u k hk0 hk1 (by omega) (by omega)
    exact ⟨t4, e, by rw [sp, hu], by rw [c, hc], same_anim_trans ha an, quiet_trans hq q⟩
  · intro k hk
    have := mem_loop_range 1 i k hk
    omega

theorem loop_upto_succ (lm : Libm) (s : State) (i : Int) (h0 : 1 ≤ i) (h1 : i < 9) :
    loop_upto lm s (i + 1) = (loop_upto lm s i).bind (fun u => display_planet lm u i) := by
  have h : loop_range 1 (i + 1) = loop_range 1 i ++ [i] := by
    interval_cases i <;> decide
  simp only [loop_upto, h, List.foldlM_append, Option.bind_eq_bind, List.foldlM_cons,
    List.foldlM_nil, Option.pure_def, Option.bind_some]

theorem display_loop_upto (lm : Libm) (s : State) : display_loop lm s = loop_upto lm s 9 := rfl

theorem rotation_at_rest : rotation_y_matrix 1 0 = identity_matrix uninit := by
  apply matrix_ext
  intro j i
  rw [rotation_y_get, identity_get]
  fin_cases j <;> fin_cases i <;> simp

theorem loop_iteration (lm : Libm) (b : State) (hb : b.stack_ptr = 0) (i : Int) (hi0 : 1 ≤ i)
    (hi1 : i < 9) :
    ∃ si a pl t1 t2 t3 t4, loop_upto lm b i = some si ∧ si.stack_ptr = 0 ∧
      slot 8 (i - 1) = some a ∧ planet_at i = some pl ∧
      push_matrix si = some t1 ∧ t1.stack_ptr = 1 ∧
      planet_transform lm i t1 = some t2 ∧ t2.stack_ptr = 1 ∧ at_sphere lm b i = some t2 ∧
      t2.CurrentMatrix = multiply_matrix (multiply_matrix (multiply_matrix b.CurrentMatrix
        (rotation_of lm (b.revolution_angles.get a))) (translation_matrix pl.distance 0 0))
        (rotation_of lm (b.rotation * (if i ≥ 5 then 2 else 1))) ∧
      (∃ pre r g c, t2.out = pre ++ [GLCall.glLoadMatrixf t2.CurrentMatrix,
        GLCall.glColor3f r g c, GLCall.glutWireSphere pl.radius 20 16]) ∧
      ring_block i t2 = some t3 ∧ t3.stack_ptr = 1 ∧
      (i = 6 → ∃ r1 r2, push_matrix t2 = some r1 ∧ r1.stack_ptr = 2 ∧
        ring_transform i r1 = some r2 ∧ r2.stack_ptr = 2 ∧
        r2.CurrentMatrix = multiply_matrix t2.CurrentMatrix ring_matrix ∧
        pop_matrix r2 = some t3) ∧
      pop_matrix t3 = some t4 ∧ loop_upto lm b (i + 1) = some t4 ∧
      t4.stack_ptr = 0 ∧ t4.CurrentMatrix = b.CurrentMatrix ∧ SameAnim b t4 ∧ Quiet b t4 := by
  obtain ⟨si, e0, sp0, c0, an0, q0⟩ := loop_upto_inv lm b hb i (by omega)
  obtain ⟨a, pl, t1, t2, t3, t4, ha, hpl, e1, sp1, e2, sp2, c2, o2, e3, sp3, six, e4, e5, sp4,
    c4, an4, q4⟩ := display_planet_step lm si i hi0 hi1 (by omega) (by omega)
  refine ⟨si, a, pl, t1, t2, t3, t4, e0, sp0, ha, hpl, e1, by rw [sp1, sp0]; rfl, e2,
    by rw [sp2, sp0]; rfl, ?_, ?_, o2, e3, by rw [sp3, sp0]; rfl, ?_, e4, ?_,
    by rw [sp4, sp0], by rw [c4, c0], same_anim_trans an0 an4, quiet_trans q0 q4⟩
  · simp only [at_sphere, e0, e1, e2, Option.bind_eq_bind, Option.some_bind]
  · rw [c2, c0, an0.1, an0.2]
  · intro h6
    obtain ⟨r1, r2, f1, f2, f3, f4, f5, f6⟩ := six h6
    exact ⟨r1, r2, f1, by rw [f2, sp0]; rfl, f3, by rw [f4, sp0]; rfl, f5, f6⟩
  · rw [loop_upto_succ lm b i hi0 hi1, e0, Option.some_bind, e5]

theorem display_unfold (lm : Libm) (V : Matrix4x4) (s b u : State)
    (hb : display_begin V s = some b) (hu : loop_upto lm b 9 = some u) :
    display lm V s = some (emit GLCall.glFlush u) := by
  simp only [display, hb, display_loop_upto, hu, Option.bind_eq_bind, Option.some_bind]

/-- C12: for every animation state, every starting current transform and every camera
matrix, a `display()` call entered at stack depth 0 returns with depth 0 and prints no
overflow or underflow error; in each of the eight iterations the depth is 0 on entry,
1 after the push and during the planet steps, 2 inside the ring block of body 6 only,
1 again after the ring block and 0 after the closing pop, so it never exceeds 2. -/
theorem display_depth_bounded (lm : Libm) (V : Matrix4x4) (s : State) (h : s.stack_ptr = 0) :
    ∃ b t, display_begin V s = some b ∧ b.stack_ptr = 0 ∧
      display lm V s = some t ∧ t.stack_ptr = 0 ∧ Quiet s t ∧
      ∀ i : Int, 1 ≤ i → i < 9 → ∃ si t1 t2 t3 t4,
        loop_upto lm b i = some si ∧ si.stack_ptr = 0 ∧
        push_matrix si = some t1 ∧ t1.stack_ptr = 1 ∧
        planet_transform lm i t1 = some t2 ∧ t2.stack_ptr = 1 ∧
        ring_block i t2 = some t3 ∧ t3.stack_ptr = 1 ∧
        (i = 6 → ∃ r1 r2, push_matrix t2 = some r1 ∧ r1.stack_ptr = 2 ∧
          ring_transform i r1 = some r2 ∧ r2.stack_ptr = 2 ∧ pop_matrix r2 = some t3) ∧
        pop_matrix t3 = some t4 ∧ t4.stack_ptr = 0 ∧ loop_upto lm b (i + 1) = some t4 := by
  obtain ⟨b, eb, sb, _, _, qb⟩ := display_begin_step V s
  have hb : b.stack_ptr = 0 := by rw [sb.1, h]
  obtain ⟨u, eu, spu, _, _, qu⟩ := loop_upto_inv lm b hb 9 (le_refl 9)
  refine ⟨b, _, eb, hb, display_unfold lm V s b u eb eu, spu, ?_, fun i hi0 hi1 => ?_⟩
  · exact quiet_trans qb (quiet_trans qu ⟨[GLCall.glFlush], rfl, fun msg hm => by simp at hm⟩)
  · obtain ⟨si, a, pl, t1, t2, t3, t4, e0, sp0, _, _, e1, sp1, e2, sp2, _, _, _, e3, sp3, six,
      e4, e5, sp4, _, _, _⟩ := loop_iteration lm b hb i hi0 hi1
    refine ⟨si, t1, t2, t3, t4, e0, sp0, e1, sp1, e2, sp2, e3, sp3, fun h6 => ?_, e4, sp4, e5⟩
    obtain ⟨r1, r2, f1, f2, f3, f4, _, f6⟩ := six h6
    exact ⟨r1, r2, f1, f2, f3, f4, f6⟩

/-- Instance of `display_depth_bounded` at program start: the frame ends at depth 0
without error output, and iteration 6 reaches depth 2 inside its ring block. -/
theorem display_depth_bounded_witness :
    init.stack_ptr = 0 ∧
    ∃ b t, display_begin uninit init = some b ∧ b.stack_ptr = 0 ∧
      display quarter_libm uninit init = some t ∧ t.stack_ptr = 0 ∧ Quiet init t ∧
      ∀ i : Int, 1 ≤ i → i < 9 → ∃ si t1 t2 t3 t4,
        loop_upto quarter_libm b i = some si ∧ si.stack_ptr = 0 ∧
        push_matrix si = some t1 ∧ t1.stack_ptr = 1 ∧
        planet_transform quarter_libm i t1 = some t2 ∧ t2.stack_ptr = 1 ∧
        ring_block i t2 = some t3 ∧ t3.stack_ptr = 1 ∧
        (i = 6 → ∃ r1 r2, push_matrix t2 = some r1 ∧ r1.stack_ptr = 2 ∧
          ring_transform i r1 = some r2 ∧ r2.stack_ptr = 2 ∧ pop_matrix r2 = some t3) ∧
        pop_matrix t3 = some t4 ∧ t4.stack_ptr = 0 ∧
        loop_upto quarter_libm b (i + 1) = some t4 :=
  ⟨rfl, display_depth_bounded quarter_libm uninit init rfl⟩

/-- C18: for every camera transform `V`, every animation state and stack depth 0 on
entry, `display()` draws the sphere of body `i` (1 to 8) under exactly
`V * Ry(revolution_angles[i-1]) * T(planets[i].distance, 0, 0) * Ry(rotation * f_i)`,
where `Ry` is the matrix `my_rotatef_y` builds, `f_i = 2` for `i >= 5` and `1` otherwise:
this is the current transform, and the last matrix handed to `glLoadMatrixf`, when
`glutWireSphere` is called. It depends on no other body and not on the ring block. The
closing pop of every iteration restores `V`, and `V` is the current transform at the end
of the frame. -/
theorem display_sphere_transform (lm : Libm) (V : Matrix4x4) (s : State)
    (h : s.stack_ptr = 0) :
    ∃ b t, display_begin V s = some b ∧ b.CurrentMatrix = V ∧
      display lm V s = some t ∧ t.CurrentMatrix = V ∧
      ∀ i : Int, 1 ≤ i → i < 9 → ∃ a pl u w,
        slot 8 (i - 1) = some a ∧ planet_at i = some pl ∧ at_sphere lm b i = some u ∧
        u.CurrentMatrix = multiply_matrix (multiply_matrix (multiply_matrix V
          (rotation_of lm (s.revolution_angles.get a))) (translation_matrix pl.distance 0 0))
          (rotation_of lm (s.rotation * (if i ≥ 5 then 2 else 1))) ∧
        (∃ pre r g c, u.out = pre ++ [GLCall.glLoadMatrixf u.CurrentMatrix,
          GLCall.glColor3f r g c, GLCall.glutWireSphere pl.radius 20 16]) ∧
        (ring_block i u).bind pop_matrix = some w ∧ loop_upto lm b (i + 1) = some w ∧
        w.CurrentMatrix = V ∧ w.stack_ptr = 0 := by
  obtain ⟨b, eb, sb, cb, ab, _⟩ := display_begin_step V s
  have hb : b.stack_ptr = 0 := by rw [sb.1, h]
  obtain ⟨u, eu, _, cu, _, _⟩ := loop_upto_inv lm b hb 9 (le_refl 9)
  refine ⟨b, _, eb, cb, display_unfold lm V s b u eb eu, by rw [← cb, ← cu]; rfl,
    fun i hi0 hi1 => ?_⟩
  obtain ⟨si, a, pl, t1, t2, t3, t4, _, _, ha, hpl, _, _, _, _, e2, c2, o2, e3, _, _, e4, e5,
    sp4, c4, _, _⟩ := loop_iteration lm b hb i hi0 hi1
  refine ⟨a, pl, t2, t4, ha, hpl, e2, ?_, o2, by rw [e3, Option.some_bind, e4], e5,
    by rw [c4, cb], sp4⟩
  rw [c2, cb, ab.1, ab.2]

/-- Instance of `display_sphere_transform` at program start, for the identity as camera
transform. -/
theorem display_sphere_transform_witness :
    init.stack_ptr = 0 ∧
    ∃ b t, display_begin (identity_matrix uninit) init = some b ∧
      b.CurrentMatrix = identity_matrix uninit ∧
      display quarter_libm (identity_matrix uninit) init = some t ∧
      t.CurrentMatrix = identity_matrix uninit ∧
      ∀ i : Int, 1 ≤ i → i < 9 → ∃ a pl u w,
        slot 8 (i - 1) = some a ∧ planet_at i = some pl ∧
        at_sphere quarter_libm b i = some u ∧
        u.CurrentMatrix = multiply_matrix (multiply_matrix (multiply_matrix
          (identity_matrix uninit)
          (rotation_of quarter_libm (init.revolution_angles.get a)))
          (translation_matrix pl.distance 0 0))
          (rotation_of quarter_libm (init.rotation * (if i ≥ 5 then 2 else 1))) ∧
        (∃ pre r g c, u.out = pre ++ [GLCall.glLoadMatrixf u.CurrentMatrix,
          GLCall.glColor3f r g c, GLCall.glutWireSphere pl.radius 20 16]) ∧
        (ring_block i u).bind pop_matrix = some w ∧
        loop_upto quarter_libm b (i + 1) = some w ∧
        w.CurrentMatrix = identity_matrix uninit ∧ w.stack_ptr = 0 :=
  ⟨rfl, display_sphere_transform quarter_libm (identity_matrix uninit) init rfl⟩

theorem translation_column (x y z : ℚ) :
    (translation_matrix x y z).get 12 = x ∧ (translation_matrix x y z).get 13 = y ∧
    (translation_matrix x y z).get 14 = z := by
  simp only [lit_idx, translation_get]
  simp

/-- C11: run the planet loop of `display()` from a state whose current transform is the
identity, whose stack depth is 0 and whose eight orbital angles and axial angle are 0,
with `cosf(0) = 1` and `sinf(0) = 0`. Then for each body `i` in 1..8 the current
transform when its sphere is drawn has translation column (entries `[12]`, `[13]`,
`[14]`) equal to `(planets[i].distance, 0, 0)`, and the depth is 0 after the frame. -/
theorem display_at_rest (lm : Libm) (s : State) (hc : lm.cosf 0 = 1) (hs : lm.sinf 0 = 0)
    (hcur : s.CurrentMatrix = identity_matrix uninit) (hsp : s.stack_ptr = 0)
    (hang : s.revolution_angles = Mathlib.Vector.replicate 8 0) (hrot : s.rotation = 0) :
    ∃ t, display_loop lm s = some t ∧ t.stack_ptr = 0 ∧
      ∀ i : Int, 1 ≤ i → i < 9 → ∃ pl u, planet_at i = some pl ∧ at_sphere lm s i = some u ∧
        u.CurrentMatrix.get 12 = pl.distance ∧ u.CurrentMatrix.get 13 = 0 ∧
        u.CurrentMatrix.get 14 = 0 := by
  obtain ⟨t, et, spt, _, _, _⟩ := loop_upto_inv lm s hsp 9 (le_refl 9)
  refine ⟨t, et, spt, fun i hi0 hi1 => ?_⟩
  obtain ⟨si, a, pl, t1, t2, t3, t4, _, _, _, hpl, _, _, _, _, e2, c2, _⟩ :=
    loop_iteration lm s hsp i hi0 hi1
  have hr : ∀ x : ℚ, x = 0 → rotation_of lm x = identity_matrix uninit := by
    intro x hx
    rw [hx, rotation_of, zero_mul, zero_div, hc, hs, rotation_at_rest]
  have hcm : t2.CurrentMatrix = translation_matrix pl.distance 0 0 := by
    rw [c2, hr _ (by rw [hang, Mathlib.Vector.get_replicate]), hr _ (by rw [hrot, zero_mul]),
      hcur, mul_identity, mul_identity, identity_mul]
  obtain ⟨h12, h13, h14⟩ := translation_column pl.distance 0 0
  exact ⟨pl, t2, hpl, e2, by rw [hcm, h12], by rw [hcm, h13], by rw [hcm, h14]⟩

/-- Instance of `display_at_rest`: the state at program start with the identity as
current transform, with a libm stand-in answering cosine 1 and sine 0. -/
theorem display_at_rest_witness :
    (rest_libm.cosf 0 = 1 ∧ rest_libm.sinf 0 = 0 ∧
      identity_start.CurrentMatrix = identity_matrix uninit ∧ identity_start.stack_ptr = 0 ∧
      identity_start.revolution_angles = Mathlib.Vector.replicate 8 0 ∧
      identity_start.rotation = 0) ∧
    ∃ t, display_loop rest_libm identity_start = some t ∧ t.stack_ptr = 0 ∧
      ∀ i : Int, 1 ≤ i → i < 9 → ∃ pl u, planet_at i = some pl ∧
        at_sphere rest_libm identity_start i = some u ∧
        u.CurrentMatrix.get 12 = pl.distance ∧ u.CurrentMatrix.get 13 = 0 ∧
        u.CurrentMatrix.get 14 = 0 :=
  ⟨⟨rfl, rfl, rfl, rfl, rfl, rfl⟩, display_at_rest rest_libm identity_start rfl rfl rfl rfl rfl rfl⟩

/-! ## The animation updater -/

theorem vector_set_set (v : Mathlib.Vector ℚ 8) (k : Fin 8) (x y : ℚ) :
    (v.set k x).set k y = v.set k y := by
  apply Mathlib.Vector.ext
  intro j
  by_cases h : k = j <;> simp [Mathlib.Vector.get_set_eq_if, h]

theorem slot_fin (k : Fin 8) : slot 8 (k.val : Int) = some k := by
  obtain ⟨a, ha, hv⟩ := slot_some 8 (k.val : Int) (by omega) (by omega)
  have e : a = k := Fin.ext (by omega)
  rw [ha, e]

theorem period_of_eq (i : Int) (pl : Planet) (h : planet_at i = some pl) :
    period_of i = pl.orbital_period := by
  simp only [period_of, h]

theorem period_pos (k : Fin 8) : 0 < period_of ((k.val : Int) + 1) := by
  obtain ⟨pl, hpl, hpos⟩ := planet_at_some ((k.val : Int) + 1) (by omega) (by omega)
  rw [period_of_eq _ pl hpl]
  exact hpos (by omega)

theorem animate_planet_eq (ps : ℚ) (s : State) (k : Fin 8) :
    animate_planet ps s (k.val : Int) = some { s with
      revolution_angles := s.revolution_angles.set k
        (wrap360 (s.revolution_angles.get k + 365 / period_of ((k.val : Int) + 1) * ps)) } := by
  obtain ⟨pl, hpl, hpos⟩ := planet_at_some ((k.val : Int) + 1) (by omega) (by omega)
  have hne : pl.orbital_period ≠ 0 := ne_of_gt (hpos (by omega))
  simp only [animate_planet, hpl, fdiv, hne, slot_fin, if_false, Option.bind_eq_bind,
    Option.some_bind, Mathlib.Vector.get_set_same, vector_set_set, period_of_eq _ pl hpl,
    wrap360]
  split <;> rfl

theorem loop_range_animate : loop_range 0 8 = (List.finRange 8).map (fun k => (k.val : Int)) := by
  decide

theorem animate_fold (ps : ℚ) (l : List (Fin 8)) (hl : l.Nodup) :
    ∀ s : State, ∃ t, (l.map (fun k => (k.val : Int))).foldlM (animate_planet ps) s = some t ∧
      (∀ k : Fin 8, t.revolution_angles.get k =
        if k ∈ l then
          wrap360 (s.revolution_angles.get k + 365 / period_of ((k.val : Int) + 1) * ps)
        else s.revolution_angles.get k) ∧
      t.rotation = s.rotation ∧ SameStack s t ∧ t.CurrentMatrix = s.CurrentMatrix ∧
      t.out = s.out := by
  induction l with
  | nil => exact fun s => ⟨s, rfl, fun k => by simp, rfl, ⟨rfl, rfl⟩, rfl, rfl⟩
  | cons j l ih =>
    intro s
    obtain ⟨hj, hl2⟩ := List.nodup_cons.mp hl
    obtain ⟨t, e, ha, hr, hs, hc, ho⟩ := ih hl2 { s with
      revolution_angles := s.revolution_angles.set j
        (wrap360 (s.revolution_angles.get j + 365 / period_of ((j.val : Int) + 1) * ps)) }
    refine ⟨t, ?_, fun k => ?_, hr, hs, hc, ho⟩
    · simp only [List.map_cons, List.foldlM_cons, animate_planet_eq, Option.bind_eq_bind,
        Option.some_bind]
      exact e
    · rw [ha k]
      by_cases hk : k ∈ l
      · have hne : j ≠ k := fun e2 => hj (e2 ▸ hk)
        simp only [hk, if_true, List.mem_cons, or_true]
        rw [Mathlib.Vector.get_set_of_ne hne]
      · by_cases hkj : k = j
        · subst hkj
          simp only [hk, if_false, List.mem_cons, true_or, if_true,
            Mathlib.Vector.get_set_same]
        · have hne : j ≠ k := fun e2 => hkj e2.symm
          simp only [hk, if_false, List.mem_cons, hkj, or_self]
          rw [Mathlib.Vector.get_set_of_ne hne]

theorem animate_eq (s : State) :
    ∃ t, animate s = some t ∧
      (∀ k : Fin 8, t.revolution_angles.get k =
        wrap360 (s.revolution_angles.get k + speed_of (k.val : Int))) ∧
      t.rotation = wrap360 (s.rotation + 2) ∧ SameStack s t ∧
      t.CurrentMatrix = s.CurrentMatrix ∧ t.out = s.out ++ [GLCall.glutPostRedisplay] := by
  obtain ⟨u, e, ha, hr, hs, hc, ho⟩ := animate_fold (1 / 100) (List.finRange 8)
    (List.nodup_finRange 8) s
  rw [← loop_range_animate] at e
  simp only [animate, e, Option.bind_eq_bind, Option.some_bind, Option.some.injEq,
    exists_eq_left']
  refine ⟨fun k => ?_, ?_, ?_, ?_, ?_⟩
  · have h := ha k
    simp only [List.mem_finRange, if_true] at h
    rw [speed_of, ← h]
    split <;> rfl
  · rw [wrap360, ← hr]
    split <;> rfl
  · split <;> exact same_stack_trans hs (emit_same _ _)
  · rw [← hc]
    split <;> rfl
  · rw [← ho]
    split <;> rfl

theorem speed_of_eq (k : Fin 8) (pl : Planet) (h : planet_at ((k.val : Int) + 1) = some pl) :
    speed_of (k.val : Int) = 365 / pl.orbital_period * (1 / 100) := by
  rw [speed_of, period_of_eq _ pl h]

theorem speed_bounds (k : Fin 8) : 0 < speed_of (k.val : Int) ∧ speed_of (k.val : Int) < 360 := by
  fin_cases k <;> simp [speed_of, period_of, planet_at, planets] <;> norm_num

theorem wrap_keep (x : ℚ) (h : x ≤ 360) : wrap360 x = x := by
  unfold wrap360
  rw [if_neg (not_lt.mpr h)]

theorem wrap_sub (x : ℚ) (h : x > 360) : wrap360 x = x - 360 := by
  unfold wrap360
  rw [if_pos h]

theorem wrap_within (x d : ℚ) (hx0 : 0 ≤ x) (hx1 : x ≤ 360) (hd0 : 0 ≤ d) (hd1 : d ≤ 360) :
    0 ≤ wrap360 (x + d) ∧ wrap360 (x + d) ≤ 360 := by
  by_cases h : x + d > 360
  · rw [wrap_sub _ h]
    constructor <;> linarith
  · rw [wrap_keep _ (not_lt.mp h)]
    constructor <;> linarith

theorem animate_within (s : State) (h : AnglesWithin s) :
    ∃ t, animate s = some t ∧ AnglesWithin t := by
  obtain ⟨t, e, ha, hr, _⟩ := animate_eq s
  refine ⟨t, e, fun k => ?_, ?_⟩
  · rw [ha k]
    exact wrap_within _ _ (h.1 k).1 (h.1 k).2 (le_of_lt (speed_bounds k).1)
      (le_of_lt (speed_bounds k).2)
  · rw [hr]
    exact wrap_within _ _ h.2.1 h.2.2 (by norm_num) (by norm_num)

theorem ticks_within (n : Nat) : ∀ s : State, AnglesWithin s →
    ∃ t, ticks n s = some t ∧ AnglesWithin t := by
  induction n with
  | zero => exact fun s h => ⟨s, rfl, h⟩
  | succ n ih =>
    intro s h
    obtain ⟨u, e, hu⟩ := animate_within s h
    obtain ⟨t, e2, ht⟩ := ih u hu
    exact ⟨t, by simp only [ticks, e, Option.some_bind, e2], ht⟩

theorem ticks_rotation_linear (n : Nat) : ∀ s : State, s.rotation + 2 * (n : ℚ) ≤ 360 →
    ∃ t, ticks n s = some t ∧ t.rotation = s.rotation + 2 * (n : ℚ) := by
  induction n with
  | zero => exact fun s _ => ⟨s, rfl, by simp⟩
  | succ n ih =>
    intro s h
    push_cast at h
    obtain ⟨u, e, _, hr, _⟩ := animate_eq s
    have hn : (0 : ℚ) ≤ (n : ℚ) := Nat.cast_nonneg n
    rw [wrap_keep _ (by linarith)] at hr
    obtain ⟨t, e2, ht⟩ := ih u (by rw [hr]; linarith)
    refine ⟨t, by simp only [ticks, e, Option.some_bind, e2], ?_⟩
    rw [ht, hr]
    push_cast
    ring

theorem ticks_angle_linear (k : Fin 8) (n : Nat) : ∀ s : State,
    s.revolution_angles.get k + (n : ℚ) * speed_of (k.val : Int) ≤ 360 →
    ∃ t, ticks n s = some t ∧
      t.revolution_angles.get k =
        s.revolution_angles.get k + (n : ℚ) * speed_of (k.val : Int) := by
  induction n with
  | zero => exact fun s _ => ⟨s, rfl, by simp⟩
  | succ n ih =>
    intro s h
    push_cast at h
    obtain ⟨u, e, ha, _⟩ := animate_eq s
    have hk := ha k
    have hn : (0 : ℚ) ≤ (n : ℚ) := Nat.cast_nonneg n
    have hsp := (speed_bounds k).1
    have hm : 0 ≤ (n : ℚ) * speed_of (k.val : Int) := mul_nonneg hn (le_of_lt hsp)
    rw [wrap_keep _ (by linarith)] at hk
    obtain ⟨t, e2, ht⟩ := ih u (by rw [hk]; linarith)
    refine ⟨t, by simp only [ticks, e, Option.some_bind, e2], ?_⟩
    rw [ht, hk]
    push_cast
    ring

/-- C13 (amended): starting from an animation state whose eight orbital angles and axial
angle are 0, after any number `n` of `animate()` ticks every orbital angle and the axial
angle lies in the closed interval from 0 to 360: each is `>= 0` and `<= 360`. -/
theorem ticks_angles_within (s : State)
    (ha : s.revolution_angles = Mathlib.Vector.replicate 8 0) (hr : s.rotation = 0) (n : Nat) :
    ∃ t, ticks n s = some t ∧
      (∀ k : Fin 8, 0 ≤ t.revolution_angles.get k ∧ t.revolution_angles.get k ≤ 360) ∧
      0 ≤ t.rotation ∧ t.rotation ≤ 360 := by
  apply ticks_within n s
  refine ⟨fun k => ?_, ?_, ?_⟩
  · rw [ha, Mathlib.Vector.get_replicate]
    constructor <;> norm_num
  · rw [hr]
  · rw [hr]
    norm_num

/-- Instance of `ticks_angles_within`: 180 ticks from program start. -/
theorem ticks_angles_within_witness :
    (init.revolution_angles = Mathlib.Vector.replicate 8 0 ∧ init.rotation = 0) ∧
    ∃ t, ticks 180 init = some t ∧
      (∀ k : Fin 8, 0 ≤ t.revolution_angles.get k ∧ t.revolution_angles.get k ≤ 360) ∧
      0 ≤ t.rotation ∧ t.rotation ≤ 360 :=
  ⟨⟨rfl, rfl⟩, ticks_angles_within init rfl rfl 180⟩

/-- C13 (as stated, refuted after 180 ticks): from program start the axial angle grows by
2 per tick and reaches exactly 360 after 180 ticks; `360 > 360` is false, so it is not
wrapped and is not strictly below 360. -/
theorem ticks_rotation_reaches_360 :
    init.revolution_angles = Mathlib.Vector.replicate 8 0 ∧ init.rotation = 0 ∧
    ∃ t, ticks 180 init = some t ∧ t.rotation = 360 ∧ ¬ t.rotation < 360 := by
  have h0 : init.rotation = 0 := rfl
  obtain ⟨t, e, ht⟩ := ticks_rotation_linear 180 init (by rw [h0]; norm_num)
  have h360 : t.rotation = 360 := by rw [ht, h0]; norm_num
  exact ⟨rfl, rfl, t, e, h360, by rw [h360]; norm_num⟩

/-- C14: with exact rationals, for every orbiting body (angle index `k`, body `k + 1`),
with `inc = 365 / planets[k + 1].orbital_period * 0.01`, every starting angle `a >= 0`
and every `n` with `a + n * inc <= 360`, `n` consecutive `animate()` ticks leave that
angle at exactly `a + n * inc`; for the body of orbital period 365, starting at 0, 36
ticks give exactly 36 times the increment. -/
theorem ticks_no_wrap :
    (∀ (k : Fin 8) (pl : Planet) (s : State) (n : Nat),
      planet_at ((k.val : Int) + 1) = some pl → 0 ≤ s.revolution_angles.get k →
      s.revolution_angles.get k + (n : ℚ) * (365 / pl.orbital_period * (1 / 100)) ≤ 360 →
      ∃ t, ticks n s = some t ∧
        t.revolution_angles.get k =
          s.revolution_angles.get k + (n : ℚ) * (365 / pl.orbital_period * (1 / 100))) ∧
    (∃ pl t, planet_at 3 = some pl ∧ pl.orbital_period = 365 ∧ ticks 36 init = some t ∧
      t.revolution_angles.get 2 = 36 * (365 / pl.orbital_period * (1 / 100))) := by
  constructor
  · intro k pl s n hpl _ h
    rw [← speed_of_eq k pl hpl] at h ⊢
    exact ticks_angle_linear k n s h
  · have hpl : planet_at 3 = some ⟨"Earth", 6 / 10, 8, 365⟩ := by simp [planet_at, planets]
    have hsp : speed_of ((2 : Fin 8).val : Int) = 365 / 365 * (1 / 100) :=
      speed_of_eq 2 _ hpl
    have h0 : init.revolution_angles.get 2 = 0 := by
      simp only [init, Mathlib.Vector.get_replicate]
    obtain ⟨t, e, ht⟩ := ticks_angle_linear 2 36 init (by rw [h0, hsp]; norm_num)
    refine ⟨_, t, hpl, rfl, e, ?_⟩
    rw [ht, h0, hsp]
    norm_num

/-- Instance of `ticks_no_wrap`: Mercury (angle index 0) at program start, 100 ticks. -/
theorem ticks_no_wrap_witness :
    (planet_at (((0 : Fin 8).val : Int) + 1) = some ⟨"Mercury", 3 / 10, 4, 88⟩ ∧
      0 ≤ init.revolution_angles.get 0 ∧
      init.revolution_angles.get 0 + ((100 : Nat) : ℚ) * (365 / 88 * (1 / 100)) ≤ 360) ∧
    ∃ t, ticks 100 init = some t ∧
      t.revolution_angles.get 0 =
        init.revolution_angles.get 0 + ((100 : Nat) : ℚ) * (365 / 88 * (1 / 100)) :=
  have h0 : init.revolution_angles.get 0 = 0 := by
    simp only [init, Mathlib.Vector.get_replicate]
  have hp : planet_at (((0 : Fin 8).val : Int) + 1) = some ⟨"Mercury", 3 / 10, 4, 88⟩ := by
    simp [planet_at, planets]
  have h1 : 0 ≤ init.revolution_angles.get 0 := by rw [h0]
  have h2 : init.revolution_angles.get 0 + ((100 : Nat) : ℚ) * (365 / 88 * (1 / 100)) ≤ 360 := by
    rw [h0]; norm_num
  ⟨⟨hp, h1, h2⟩, ticks_no_wrap.1 0 ⟨"Mercury", 3 / 10, 4, 88⟩ init 100 hp h1 h2⟩

/-- C15: in one `animate()` tick an angle whose value `a` plus its per-tick increment `d`
exceeds 360 becomes `a + d - 360` (one subtraction of 360), and otherwise becomes
`a + d`. The increments are 2 for the axial angle and `365 / period * 0.01` for each
orbital angle, all strictly below 360, so for `a` in 0..360 the wrapped value
`a + d - 360` is below 360. In particular the axial angle at 359 becomes 1. -/
theorem animate_wrap (s : State) :
    ∃ t, animate s = some t ∧
      (s.rotation + 2 > 360 → t.rotation = s.rotation + 2 - 360) ∧
      (s.rotation + 2 ≤ 360 → t.rotation = s.rotation + 2) ∧
      (0 ≤ s.rotation → s.rotation ≤ 360 → s.rotation + 2 > 360 →
        0 ≤ t.rotation ∧ t.rotation < 360) ∧
      (s.rotation = 359 → t.rotation = 1) ∧
      (∀ k : Fin 8, ∃ pl d, planet_at ((k.val : Int) + 1) = some pl ∧
        d = 365 / pl.orbital_period * (1 / 100) ∧ 0 < d ∧ d < 360 ∧
        (s.revolution_angles.get k + d > 360 →
          t.revolution_angles.get k = s.revolution_angles.get k + d - 360) ∧
        (s.revolution_angles.get k + d ≤ 360 →
          t.revolution_angles.get k = s.revolution_angles.get k + d) ∧
        (0 ≤ s.revolution_angles.get k → s.revolution_angles.get k ≤ 360 →
          s.revolution_angles.get k + d > 360 →
          0 ≤ t.revolution_angles.get k ∧ t.revolution_angles.get k < 360)) := by
  obtain ⟨t, e, ha, hr, _⟩ := animate_eq s
  refine ⟨t, e, fun h => by rw [hr, wrap_sub _ h], fun h => by rw [hr, wrap_keep _ h], ?_, ?_,
    fun k => ?_⟩
  · intro h0 h1 h2
    rw [hr, wrap_sub _ h2]
    constructor <;> linarith
  · intro h
    rw [hr, h, wrap_sub _ (by norm_num)]
    norm_num
  · obtain ⟨pl, hpl, _⟩ := planet_at_some ((k.val : Int) + 1) (by omega) (by omega)
    have hs := speed_of_eq k pl hpl
    obtain ⟨b0, b1⟩ := speed_bounds k
    rw [hs] at b0 b1
    refine ⟨pl, _, hpl, rfl, b0, b1, fun h => ?_, fun h => ?_, fun h0 h1 h2 => ?_⟩
    · rw [ha k, hs, wrap_sub _ h]
    · rw [ha k, hs, wrap_keep _ h]
    · rw [ha k, hs, wrap_sub _ h2]
      constructor <;> linarith

/-- Instance of `animate_wrap`: the state at program start with the axial angle set to
359; one tick brings it to 1. -/
theorem animate_wrap_witness :
    ({ init with rotation := 359 } : State).rotation = 359 ∧
    ∃ t, animate { init with rotation := 359 } = some t ∧ t.rotation = 1 := by
  obtain ⟨t, e, _, _, _, h, _⟩ := animate_wrap { init with rotation := 359 }
  exact ⟨rfl, t, e, h rfl⟩

/-- C20: `animate()` never divides by zero and never indexes outside its arrays: it
returns a state from every state; its loop index runs over 0..7; for each such `i` the
read of `planets[i + 1]` (index 1..8, never the Sun at index 0, whose period is 0) and
the write of `revolution_angles[i]` are in bounds, the period read is strictly positive,
the division is defined and the per-tick speed `365 / period * 0.01` is strictly
positive. -/
theorem animate_safe :
    (∀ s : State, ∃ t, animate s = some t) ∧
    loop_range 0 8 = [0, 1, 2, 3, 4, 5, 6, 7] ∧
    (∀ i : Int, i ∈ loop_range 0 8 → ∃ pl a q,
      1 ≤ i + 1 ∧ i + 1 ≤ 8 ∧ planet_at (i + 1) = some pl ∧ 0 < pl.orbital_period ∧
      slot 8 i = some a ∧ (a.val : Int) = i ∧
      fdiv 365 pl.orbital_period = some q ∧ q = 365 / pl.orbital_period ∧
      0 < q * (1 / 100)) ∧
    (∀ (ps : ℚ) (s : State) (i : Int), i ∈ loop_range 0 8 →
      ∃ t, animate_planet ps s i = some t) ∧
    (∃ sun, planet_at 0 = some sun ∧ sun.orbital_period = 0 ∧
      fdiv 365 sun.orbital_period = none) := by
  refine ⟨fun s => ?_, by decide, fun i hi => ?_, fun ps s i hi => ?_, ?_⟩
  · obtain ⟨t, e, _⟩ := animate_eq s
    exact ⟨t, e⟩
  · obtain ⟨h0, h1⟩ := mem_loop_range 0 8 i hi
    obtain ⟨pl, hpl, hpos⟩ := planet_at_some (i + 1) (by omega) (by omega)
    obtain ⟨a, ha, hv⟩ := slot_some 8 i h0 (by omega)
    have hp := hpos (by omega)
    refine ⟨pl, a, 365 / pl.orbital_period, by omega, by omega, hpl, hp, ha, hv, ?_, rfl, ?_⟩
    · simp only [fdiv, ne_of_gt hp, if_false]
    · have : 0 < 365 / pl.orbital_period := div_pos (by norm_num) hp
      linarith
  · obtain ⟨h0, h1⟩ := mem_loop_range 0 8 i hi
    obtain ⟨t, e, _⟩ := animate_planet_same ps s i h0 h1
    exact ⟨t, e⟩
  · exact ⟨⟨"Sun", 3, 0, 0⟩, by simp [planet_at, planets], rfl, by simp [fdiv]⟩

/-- Instance of `animate_safe`: loop index 7 reads `planets[8]` and writes
`revolution_angles[7]`. -/
theorem animate_safe_witness :
    (7 : Int) ∈ loop_range 0 8 ∧
    (∃ pl a q, 1 ≤ (7 : Int) + 1 ∧ (7 : Int) + 1 ≤ 8 ∧ planet_at (7 + 1) = some pl ∧
      0 < pl.orbital_period ∧ slot 8 7 = some a ∧ (a.val : Int) = 7 ∧
      fdiv 365 pl.orbital_period = some q ∧ q = 365 / pl.orbital_period ∧
      0 < q * (1 / 100)) ∧
    ∃ t, animate_planet (1 / 100) init 7 = some t :=
  ⟨by decide, animate_safe.2.2.1 7 (by decide), animate_safe.2.2.2.1 (1 / 100) init 7 (by decide)⟩

end Solar
